import Mathlib

set_option maxHeartbeats 1000000
set_option linter.unusedVariables false

/-!
Shallow embedding of the HNSW index of this repository
(src/hnsw.rs, src/vector.rs).

Modelling choices:
* f64 scalar values are modelled as rationals; the index is generic over its
  distance calculator (a boxed trait object in the source), which is passed
  here as an explicit function argument `dist`.
* The node HashMap is modelled as a list of nodes keyed by `id`, with
  overwrite-on-insert; the only iteration over the map (get_stats) folds a
  commutative operation, so the list order is immaterial.
* Rust panics (indexing a map with a missing key, Option::unwrap on None)
  are modelled as `Except.error`; functions returning Result<..., String>
  keep their error strings.
* The single random input, random_level(), is passed to `add` explicitly as
  `node_level`; the generator always yields a value in [0, MAX_LEVEL].
-/

structure VectorItem where
  id : Nat
  vector : List ℚ
deriving Repr, DecidableEq

structure Node where
  id : Nat
  connections : List (List Nat)
  item : VectorItem
  layer : Nat
deriving Repr, DecidableEq

structure Neighbor where
  id : Nat
  distance : ℚ
deriving Repr, DecidableEq

-- src/hnsw.rs:8-11
def M : Nat := 16
def M_MAX0 : Nat := 32
def EF_CONSTRUCTION : Nat := 100
def EF_SEARCH : Nat := 64
-- src/hnsw.rs:66 (max_level, set in new() and never modified)
def MAX_LEVEL : Nat := 16

abbrev DistFn := VectorItem → VectorItem → ℚ

abbrev NodeTable := List Node

def findNode (t : NodeTable) (i : Nat) : Option Node :=
  t.find? (fun n => n.id == i)

/-- HashMap::insert — overwrites the entry with the same key, else adds. -/
def insertNode (t : NodeTable) (n : Node) : NodeTable :=
  if t.any (fun m => m.id == n.id) then
    t.map (fun m => if m.id == n.id then n else m)
  else t ++ [n]

/-- HashMap::get_mut followed by an in-place update; identity if absent. -/
def modifyNode (t : NodeTable) (i : Nat) (f : Node → Node) : NodeTable :=
  t.map (fun m => if m.id == i then f m else m)

structure HnswIndex where
  nodes : NodeTable
  entry_point : Option Nat
deriving Repr, DecidableEq

def emptyIndex : HnswIndex := { nodes := [], entry_point := none }

def orPanic : Option α → String → Except String α
  | some a, _ => .ok a
  | none, msg => .error msg

/-- Pop the minimum-distance element (first occurrence on ties). This models
    BinaryHeap::pop under the code's REVERSED Ord on Neighbor
    (src/hnsw.rs:27-34): `cmp` compares by distance and then calls
    `.reverse()`, so the heap's greatest element is the one with the
    SMALLEST distance, for both the `candidates` heap and the `results`
    heap. -/
def popMin : List Neighbor → Option (Neighbor × List Neighbor)
  | [] => none
  | a :: rest =>
    match popMin rest with
    | none => some (a, [])
    | some (m, rest1) =>
      if a.distance ≤ m.distance then some (a, rest) else some (m, a :: rest1)

/-- Distance of results.peek() under the reversed Ord: the minimum distance
    present (the code's comment says "worst distance", but the reversed Ord
    makes peek return the closest element). -/
def minD (l : List Neighbor) : Option ℚ :=
  (popMin l).map (fun p => p.1.distance)

def neighborLE (a b : Neighbor) : Prop := a.distance ≤ b.distance

instance : DecidableRel neighborLE := fun a b =>
  inferInstanceAs (Decidable (a.distance ≤ b.distance))

instance : IsTotal Neighbor neighborLE := ⟨fun a b => le_total a.distance b.distance⟩

instance : IsTrans Neighbor neighborLE := ⟨fun _ _ _ hab hbc => le_trans hab hbc⟩

def neighborGE (a b : Neighbor) : Prop := b.distance ≤ a.distance

instance : DecidableRel neighborGE := fun a b =>
  inferInstanceAs (Decidable (b.distance ≤ a.distance))

instance : IsTotal Neighbor neighborGE := ⟨fun a b => le_total b.distance a.distance⟩

instance : IsTrans Neighbor neighborGE := ⟨fun _ _ _ hab hbc => le_trans hbc hab⟩

/-- Inner diversity check of select_neighbors (src/hnsw.rs:162-173): reject a
    candidate as soon as it is closer to some already-selected node than to
    the query. The map indexing panics when an id is absent. -/
def diversityCheck (dist : DistFn) (t : NodeTable) (cand : Neighbor) :
    List Nat → Except String Bool
  | [] => .ok true
  | existing :: rest => do
    let cn ← orPanic (findNode t cand.id) "key not found"
    let en ← orPanic (findNode t existing) "key not found"
    if dist cn.item en.item < cand.distance then
      .ok false
    else
      diversityCheck dist t cand rest

def selLoop (dist : DistFn) (t : NodeTable) :
    List Neighbor → List Nat → Except String (List Nat)
  | [], selected => .ok selected
  | c :: rest, selected => do
    let keep ← diversityCheck dist t c selected
    selLoop dist t rest (if keep then selected ++ [c.id] else selected)

/-- src/hnsw.rs:148-181. `query` is received but unused, as in the source. -/
def select_neighbors (dist : DistFn) (t : NodeTable) (query : VectorItem)
    (candidates : List Neighbor) (level : Nat) : Except String (List Nat) :=
  let max_connections := if level == 0 then M_MAX0 else M
  let remaining := List.insertionSort neighborLE candidates
  selLoop dist t (remaining.take max_connections) []

/-- Processing of one neighbor id inside the expansion loop
    (src/hnsw.rs:304-323). `furthest` is the value `furthest_dist` computed
    once per outer iteration; when `results` was empty it is f64::INFINITY,
    modelled as `none` (every comparison `d < INFINITY` holds). The state is
    (visited, candidates, results). -/
def stepNeighbor (dist : DistFn) (t : NodeTable) (query : VectorItem) (ef : Nat)
    (furthest : Option ℚ) (st : List Nat × List Neighbor × List Neighbor)
    (nid : Nat) : List Nat × List Neighbor × List Neighbor :=
  let visited := st.1
  let cands := st.2.1
  let results := st.2.2
  if nid ∈ visited then st
  else
    let visited1 := nid :: visited
    match findNode t nid with
    | none => (visited1, cands, results)
    | some nn =>
      let d := dist query nn.item
      let closer : Bool := match furthest with
        | none => true
        | some f => decide (d < f)
      if decide (results.length < ef) || closer then
        let results1 := results ++ [⟨nid, d⟩]
        let cands1 := cands ++ [⟨nid, d⟩]
        let results2 :=
          if ef < results1.length then
            match popMin results1 with
            | some p => p.2
            | none => results1
          else results1
        (visited1, cands1, results2)
      else (visited1, cands, results)

/-- The while loop of search_at_layer (src/hnsw.rs:294-326), with explicit
    fuel. Fuel `t.length + 1` always suffices: each iteration pops one
    candidate, and pushes are gated by first-time insertion into `visited`
    of an id present in the table, so the total number of pushes over a run
    is at most `t.length`; exhaustion is unreachable and the exhaustion
    branch returns the current results like the natural exit. -/
def searchLoop (dist : DistFn) (t : NodeTable) (query : VectorItem)
    (level ef : Nat) :
    Nat → List Nat → List Neighbor → List Neighbor → List Neighbor
  | 0, _, _, results => results
  | fuel + 1, visited, cands, results =>
    match popMin cands with
    | none => results
    | some (current, cands1) =>
      let breakNow : Bool := match minD results with
        | none => false
        | some f => decide (f < current.distance)
      if breakNow then results
      else
        let st :=
          match findNode t current.id with
          | none => (visited, cands1, results)
          | some node =>
            if level < node.connections.length then
              (node.connections.getD level []).foldl
                (stepNeighbor dist t query ef (minD results))
                (visited, cands1, results)
            else (visited, cands1, results)
        searchLoop dist t query level ef fuel st.1 st.2.1 st.2.2

/-- src/hnsw.rs:265-329. The returned vector is results.into_sorted_vec():
    ascending in the REVERSED Ord, i.e. sorted by DESCENDING distance. -/
def search_at_layer (dist : DistFn) (t : NodeTable) (entry_point : Nat)
    (query : VectorItem) (level ef : Nat) : Except String (List Neighbor) := do
  let entry_node ← orPanic (findNode t entry_point) "Entry point not found"
  if entry_node.connections.length ≤ level then
    .ok []
  else
    let initial : Neighbor := ⟨entry_point, dist query entry_node.item⟩
    let final := searchLoop dist t query level ef (t.length + 1)
        [entry_point] [initial] [initial]
    .ok (List.insertionSort neighborGE final)

/-- Reverse-connection update of add (src/hnsw.rs:108-128): for each selected
    neighbor, the selector is re-run over the SINGLE candidate (new node,
    its distance to the neighbor) and the neighbor's connection list at this
    level is REPLACED by the result. -/
def updateReverse (dist : DistFn) (item : VectorItem) (node_id level : Nat) :
    List Nat → NodeTable → Except String NodeTable
  | [], t => .ok t
  | neighbor_id :: rest, t => do
    let nn ← orPanic (findNode t neighbor_id) "key not found"
    let neighbor_dist := dist item nn.item
    let reverse_selected ← select_neighbors dist t nn.item
        [⟨node_id, neighbor_dist⟩] level
    let t1 := modifyNode t neighbor_id (fun m =>
      if level < m.connections.length then
        { m with connections := m.connections.set level reverse_selected }
      else m)
    updateReverse dist item node_id level rest t1

/-- The per-level insertion loop of add (src/hnsw.rs:97-129): the entry point
    `curr_ep` is the original global entry point at every level, as in the
    source. State carried: mutated table and the new node's connection
    lists. -/
def addLevels (dist : DistFn) (curr_ep : Nat) (item : VectorItem)
    (node_id : Nat) :
    List Nat → NodeTable → List (List Nat) →
    Except String (NodeTable × List (List Nat))
  | [], t, conns => .ok (t, conns)
  | level :: rest, t, conns => do
    let neighbors ← search_at_layer dist t curr_ep item level
        (if level == 0 then EF_CONSTRUCTION else M)
    let selected ← select_neighbors dist t item neighbors level
    let conns1 := if level < conns.length then conns.set level selected else conns
    let t1 ← updateReverse dist item node_id level selected t
    addLevels dist curr_ep item node_id rest t1 conns1

/-- src/hnsw.rs:71-146. `node_level` is the result of random_level()
    (src/hnsw.rs:252-259), the only random input, passed explicitly. -/
def add (dist : DistFn) (s : HnswIndex) (item : VectorItem) (node_level : Nat) :
    Except String HnswIndex := do
  let node_id := item.id
  if s.nodes.isEmpty then
    let new_node : Node :=
      { id := node_id, connections := List.replicate (node_level + 1) [],
        item := item, layer := node_level }
    .ok { nodes := insertNode s.nodes new_node, entry_point := some node_id }
  else
    let curr_ep ← orPanic s.entry_point "unwrap on None"
    let ep_node ← orPanic (findNode s.nodes curr_ep) "key not found"
    let _curr_dist := dist item ep_node.item
    let levels := (List.range (node_level + 1)).reverse
    let res ← addLevels dist curr_ep item node_id levels s.nodes
        (List.replicate (node_level + 1) [])
    let new_node : Node :=
      { id := node_id, connections := res.2, item := item, layer := node_level }
    let t1 := insertNode res.1 new_node
    let ep_node1 ← orPanic (findNode t1 curr_ep) "key not found"
    if ep_node1.layer < node_level then
      .ok { nodes := t1, entry_point := some node_id }
    else
      .ok { nodes := t1, entry_point := s.entry_point }

/-- One pass of the greedy descent (src/hnsw.rs:377-399): scan all neighbors
    of the current entry at this level keeping the strictly best, repeat
    until no improvement. Fuel `t.length + 1` always suffices because the
    current distance strictly decreases at each repetition. -/
def greedyAtLevel (dist : DistFn) (t : NodeTable) (query : VectorItem)
    (level : Nat) : Nat → Nat × ℚ → Except String (Nat × ℚ)
  | 0, st => .ok st
  | fuel + 1, st => do
    let best ←
      match findNode t st.1 with
      | none => .ok st
      | some node =>
        if level < node.connections.length then
          (node.connections.getD level []).foldlM
            (fun (b : Nat × ℚ) nid => do
              let nn ← orPanic (findNode t nid) "key not found"
              let d := dist query nn.item
              if d < b.2 then pure (nid, d) else pure b) st
        else .ok st
    if best.1 == st.1 then .ok st
    else greedyAtLevel dist t query level fuel best

def descendLevels (dist : DistFn) (t : NodeTable) (query : VectorItem) :
    List Nat → Nat × ℚ → Except String (Nat × ℚ)
  | [], st => .ok st
  | level :: rest, st => do
    let st1 ← greedyAtLevel dist t query level (t.length + 1) st
    descendLevels dist t query rest st1

/-- The final mapping of search (src/hnsw.rs:408-412): each returned neighbor
    id is looked up in the table (panics if absent) and its item returned. -/
def lookupItems (t : NodeTable) : List Neighbor → Except String (List VectorItem)
  | [] => .ok []
  | n :: rest => do
    let nd ← orPanic (findNode t n.id) "key not found"
    let tl ← lookupItems t rest
    .ok (nd.item :: tl)

/-- src/hnsw.rs:362-413. -/
def search (dist : DistFn) (s : HnswIndex) (query : VectorItem) (k : Nat) :
    Except String (List VectorItem) := do
  if s.nodes.isEmpty then
    .ok []
  else
    let ep ← orPanic s.entry_point "unwrap on None"
    let ep_node ← orPanic (findNode s.nodes ep) "key not found"
    let ep_level := ep_node.layer
    let levels := ((List.range ep_level).map (fun l => l + 1)).reverse
    let fin ← descendLevels dist s.nodes query levels
        (ep, dist query ep_node.item)
    let neighbors ← search_at_layer dist s.nodes fin.1 query 0 EF_SEARCH
    let sorted := List.insertionSort neighborLE neighbors
    lookupItems s.nodes (sorted.take k)

structure IndexStats where
  total_nodes : Nat
  level_distribution : Nat → Nat
  total_connections : Nat
  max_level : Nat

/-- src/hnsw.rs:422-442. level_distribution models the HashMap of counts as
    a total function (absent key reads as 0); the increments commute, so the
    fold order over the map is immaterial. max_level is self.max_level, the
    constant configured in new() (src/hnsw.rs:66). -/
def get_stats (s : HnswIndex) : IndexStats :=
  { total_nodes := s.nodes.length
    level_distribution := s.nodes.foldl
      (fun f n => fun L => if L == n.layer then f L + 1 else f L) (fun _ => 0)
    total_connections := s.nodes.foldl
      (fun acc n => acc + (n.connections.map List.length).sum) 0
    max_level := MAX_LEVEL }

/-- src/vector.rs:13-20, with f64 modelled as real values: zip the two
    component lists (zip stops at the shorter list), sum the squared
    differences, take the square root. -/
noncomputable def EuclideanDistance.calculate (item1 item2 : VectorItem) : ℝ :=
  Real.sqrt (((item1.vector.zip item2.vector).map
    (fun p => ((p.1 - p.2 : ℚ) : ℝ) ^ 2)).sum)

/-- A concrete distance calculator used for witnesses and counterexamples.
    The index is generic over its distance calculator, so any function is a
    legitimate instantiation; this one tabulates, by item id, the squared
    Euclidean distances between the sample vectors below (squaring preserves
    every comparison), keeping kernel evaluation free of rational
    arithmetic. Sample vectors: id 1 at [0], id 2 at [1], id 3 at [10],
    query id 99 at [0], query id 98 at [5]; in the 2-d sample, id 1 at
    [0, 0] and query id 9 at [1, 2, 3] (truncated by zip to [1, 2]). -/
def exDist : DistFn := fun a b =>
  match a.id, b.id with
  | 1, 2 => 1
  | 2, 1 => 1
  | 1, 3 => 100
  | 3, 1 => 100
  | 2, 3 => 81
  | 3, 2 => 81
  | 99, 1 => 0
  | 1, 99 => 0
  | 99, 2 => 1
  | 2, 99 => 1
  | 99, 3 => 100
  | 3, 99 => 100
  | 98, 1 => 25
  | 1, 98 => 25
  | 98, 2 => 16
  | 2, 98 => 16
  | 9, 1 => 5
  | 1, 9 => 5
  | _, _ => 0

/-- States reachable by sequences of successful add calls; the level passed
    at each step is bounded by MAX_LEVEL as random_level guarantees. -/
inductive Reachable (dist : DistFn) : HnswIndex → Prop
  | empty : Reachable dist emptyIndex
  | step {s s' : HnswIndex} {item : VectorItem} {lvl : Nat} :
      Reachable dist s → lvl ≤ MAX_LEVEL → add dist s item lvl = .ok s' →
      Reachable dist s'

/-- States reachable by successful add calls whose ids are pairwise
    distinct: each added id was not yet present. -/
inductive ReachableD (dist : DistFn) : HnswIndex → Prop
  | empty : ReachableD dist emptyIndex
  | step {s s' : HnswIndex} {item : VectorItem} {lvl : Nat} :
      ReachableD dist s → lvl ≤ MAX_LEVEL → findNode s.nodes item.id = none →
      add dist s item lvl = .ok s' → ReachableD dist s'

def isOkB : Except String α → Bool
  | .ok _ => true
  | .error _ => false

/-- The per-layer connection cap of the spec: M_max(0) = 2M, M_max(L>0) = M. -/
def M_max (L : Nat) : Nat := if L = 0 then 2 * M else M

/-- Modelled from the spec (stats): the count of stored nodes whose
    top_layer equals L (what the source histogram actually counts). -/
def layerCountEq (s : HnswIndex) (L : Nat) : Nat :=
  (s.nodes.filter (fun n => n.layer == L)).length

/-- Modelled from the spec (stats): total edge count summed over all layers
    and both stored directions, i.e. the total length of all stored
    connection lists. -/
def storedEdges (s : HnswIndex) : Nat :=
  (s.nodes.map (fun n => (n.connections.map List.length).sum)).sum

/-! ### Concrete sample items and states used in witnesses and
counterexamples.  Each state is the literal value produced by the
corresponding chain of `add` calls (verified by the `_built` theorems
below). -/

def exV1 : VectorItem := ⟨1, [0]⟩

def exV2 : VectorItem := ⟨2, [1]⟩

def exV3 : VectorItem := ⟨3, [10]⟩

def exS1 : HnswIndex :=
  ⟨[⟨1, [[]], exV1, 0⟩], some 1⟩

def exS2 : HnswIndex :=
  ⟨[⟨1, [[2]], exV1, 0⟩, ⟨2, [[1]], exV2, 0⟩], some 1⟩

def exS3 : HnswIndex :=
  ⟨[⟨1, [[2]], exV1, 0⟩, ⟨2, [[3]], exV2, 0⟩, ⟨3, [[2]], exV3, 0⟩], some 1⟩

def exQ0 : VectorItem := ⟨99, [0]⟩

/-- A 2-dimensional one-node state (for the dimension-mismatch claim). -/
def exW1 : VectorItem := ⟨1, [0, 0]⟩

def exT1 : HnswIndex := ⟨[⟨1, [[]], exW1, 0⟩], some 1⟩

/-- A one-node state whose single node has top layer 2 (for the stats
    claim). -/
def exSL2 : HnswIndex := ⟨[⟨7, [[], [], []], ⟨7, [0]⟩, 2⟩], some 7⟩


/-- Projection of a node to everything except its (mutable) connection
    lists; insertions rewrite other nodes' connections only. -/
def skel (n : Node) : Nat × Nat × VectorItem := (n.id, n.layer, n.item)

/-- All connection lists of all nodes of the table point into `keys`. -/
def ConnInT (t : NodeTable) (keys : List Nat) : Prop :=
  ∀ n ∈ t, ∀ l ∈ n.connections, ∀ i ∈ l, i ∈ keys

/-- Per-layer degree bound of every node of the table. -/
def DegInvT (t : NodeTable) : Prop :=
  ∀ n ∈ t, ∀ L : Nat, (n.connections.getD L []).length ≤ M_max L

/-- Entry-point basic sanity: present iff the table is non-empty, and
    resolvable when present. -/
def EpInv (s : HnswIndex) : Prop :=
  (s.entry_point = none ↔ s.nodes = []) ∧
  (∀ e, s.entry_point = some e → (findNode s.nodes e).isSome = true)

/-- The well-formedness package preserved by add. -/
def WF (s : HnswIndex) : Prop :=
  EpInv s ∧ ConnInT s.nodes (s.nodes.map (fun n => n.id)) ∧ DegInvT s.nodes

instance {ε α : Type} [DecidableEq ε] [DecidableEq α] : DecidableEq (Except ε α) := fun a b =>
  match a, b with
  | .ok x, .ok y =>
    if h : x = y then .isTrue (by rw [h]) else .isFalse (by simp [h])
  | .error x, .error y =>
    if h : x = y then .isTrue (by rw [h]) else .isFalse (by simp [h])
  | .ok _, .error _ => .isFalse (by simp)
  | .error _, .ok _ => .isFalse (by simp)

/-! ### Construction of the sample states by the embedded `add` -/

theorem exS1_built : add exDist emptyIndex exV1 0 = .ok exS1 := by decide

theorem exS2_built : add exDist exS1 exV2 0 = .ok exS2 := by decide

theorem exS3_built : add exDist exS2 exV3 0 = .ok exS3 := by decide

theorem exT1_built : add exDist emptyIndex exW1 0 = .ok exT1 := by decide

theorem exSL2_built : add exDist emptyIndex ⟨7, [0]⟩ 2 = .ok exSL2 := by decide

theorem exS1_reach : Reachable exDist exS1 :=
  Reachable.step Reachable.empty (by decide) exS1_built

theorem exS2_reach : Reachable exDist exS2 :=
  Reachable.step exS1_reach (by decide) exS2_built

theorem exS3_reach : Reachable exDist exS3 :=
  Reachable.step exS2_reach (by decide) exS3_built

theorem exT1_reach : Reachable exDist exT1 :=
  Reachable.step Reachable.empty (by decide) exT1_built

theorem exS1_reachD : ReachableD exDist exS1 :=
  ReachableD.step ReachableD.empty (by decide) (by decide) exS1_built

theorem exS2_reachD : ReachableD exDist exS2 :=
  ReachableD.step exS1_reachD (by decide) (by decide) exS2_built

theorem exSL2_reach : Reachable exDist exSL2 :=
  Reachable.step Reachable.empty (by decide) exSL2_built

/-! ### C1 -/

/-- Claim C1, counterexample: the id 1 is already present in `exS1`, yet
    `add` succeeds (no DuplicateId check exists; the stored node is
    overwritten); likewise an item whose vector has length 3 is accepted
    into the 1-dimensional index (no DimensionMismatch check exists). All
    distances involved are plain rationals, mirroring finite-float runs of
    the source exactly. -/
theorem C1_counterexample :
    (findNode exS1.nodes 1).isSome = true ∧
    isOkB (add exDist exS1 ⟨1, [5]⟩ 0) = true ∧
    exV1.vector.length = 1 ∧
    isOkB (add exDist exS1 ⟨4, [1, 2, 3]⟩ 0) = true := by decide

/-! ### C2 -/

/-- Claim C2, code bug: inserting id 3 into `exS2`, where node 2 stores
    neighbors [1] at layer 0 and is selected for the new node, REPLACES
    node 2's list with [3] — the previously stored neighbor 1 is discarded
    even though the appended list [1, 3] would not exceed M_max(0), so the
    claimed append-then-prune-only-on-overflow behavior does not happen. -/
theorem C2_code_divergence :
    add exDist exS2 exV3 0 = .ok exS3 ∧
    (findNode exS2.nodes 2).map (fun n => n.connections.getD 0 []) = some [1] ∧
    (findNode exS3.nodes 2).map (fun n => n.connections.getD 0 []) = some [3] ∧
    ([1, 3] : List Nat).length ≤ M_max 0 := by decide

/-! ### C3 -/

/-- Claim C3, code bug: layer-local search on the two-node graph 1 ↔ 2 with
    query at distance 25 from node 1 and 16 from node 2, ef = 1: node 2 is
    discovered and is strictly closer, yet the returned singleton is the
    entry at distance 25 — the eviction removed the MINIMUM-distance
    element and the loop's f is the minimum distance in results, because
    the reversed Ord turns the results heap into a min-heap. -/
theorem C3_code_divergence :
    search_at_layer exDist exS2.nodes 1 ⟨98, [5]⟩ 0 1 = .ok [⟨1, 25⟩] ∧
    exDist ⟨98, [5]⟩ exV2 = 16 ∧ ((16 : ℚ) < 25) := by decide

/-! ### C4 -/

/-- Claim C4, counterexample: `exS3` is reachable and holds 3 nodes, but
    `search(q, 3)` returns only 2 items: the loop terminates as soon as the
    popped candidate is farther than the CLOSEST element of results (the
    reversed-Ord bug), so node 3 is never reached. -/
theorem C4_counterexample :
    Reachable exDist exS3 ∧
    search exDist exS3 exQ0 3 = .ok [exV1, exV2] ∧
    min 3 exS3.nodes.length = 3 :=
  ⟨exS3_reach, by decide, by decide⟩

/-! ### C8 -/

/-- Claim C8, counterexample: the established dimension of `exT1` is 2, the query
    has length 3, yet `search` succeeds and returns the stored item — there
    is no dimension check anywhere in search. -/
theorem C8_counterexample :
    Reachable exDist exT1 ∧
    exW1.vector.length = 2 ∧
    (VectorItem.mk 9 [1, 2, 3]).vector.length = 3 ∧
    search exDist exT1 ⟨9, [1, 2, 3]⟩ 5 = .ok [exW1] :=
  ⟨exT1_reach, by decide, by decide, by decide⟩

/-! ### C9 -/

/-- Claim C9, counterexample: on a reachable one-node state whose node has top
    layer 2, get_stats reports 0 for layer 1 (the histogram counts nodes
    whose top layer EQUALS L, not ≥ L: a count of 1 was claimed), and
    reports max_level = 16, the configured constant, not the observed
    maximum top layer 2. -/
theorem C9_counterexample :
    Reachable exDist exSL2 ∧
    (get_stats exSL2).level_distribution 1 = 0 ∧
    (exSL2.nodes.filter (fun n => decide (1 ≤ n.layer))).length = 1 ∧
    (get_stats exSL2).max_level = 16 ∧
    exSL2.nodes.foldl (fun a n => max a n.layer) 0 = 2 :=
  ⟨exSL2_reach, by decide, by decide, by decide, by decide⟩

theorem foldl_level_counts (t : List Node) (f : Nat → Nat) (L : Nat) :
    (t.foldl (fun g n => fun K => if K == n.layer then g K + 1 else g K) f) L
      = f L + (t.filter (fun n => n.layer == L)).length := by
  induction t generalizing f with
  | nil => simp
  | cons n rest ih =>
    simp only [List.foldl_cons, List.filter_cons]
    rw [ih]
    by_cases h : n.layer = L
    · simp [h]
      omega
    · have h1 : (L == n.layer) = false := by
        simp [Ne.symm h]
      have h2 : (n.layer == L) = false := by simp [h]
      simp [h1, h2]

theorem foldl_total_conns (t : List Node) (a : Nat) :
    t.foldl (fun acc n => acc + (n.connections.map List.length).sum) a
      = a + (t.map (fun n => (n.connections.map List.length).sum)).sum := by
  induction t generalizing a with
  | nil => simp
  | cons n rest ih =>
    simp only [List.foldl_cons, List.map_cons, List.sum_cons]
    rw [ih]
    omega

/-- Claim C9, amended: get_stats returns the total node count, the total stored
    directed edge count, the count of nodes whose top layer EQUALS L for
    each L, and the CONFIGURED maximum level (16), not the observed one. -/
theorem C9_get_stats_amended (s : HnswIndex) :
    (get_stats s).total_nodes = s.nodes.length ∧
    (∀ L : Nat, (get_stats s).level_distribution L = layerCountEq s L) ∧
    (get_stats s).total_connections = storedEdges s ∧
    (get_stats s).max_level = MAX_LEVEL := by
  refine ⟨rfl, fun L => ?_, ?_, rfl⟩
  · have h := foldl_level_counts s.nodes (fun _ => 0) L
    rw [Nat.zero_add] at h
    exact h
  · have h := foldl_total_conns s.nodes 0
    rw [Nat.zero_add] at h
    exact h

/-! ### C10 -/

theorem zip_take_min {α β : Type} (l1 : List α) (l2 : List β) :
    l1.zip l2 =
      (l1.take (min l1.length l2.length)).zip
        (l2.take (min l1.length l2.length)) := by
  induction l1 generalizing l2 with
  | nil => simp
  | cons a l ih =>
    cases l2 with
    | nil => simp
    | cons b m =>
      simp only [List.zip_cons_cons, List.length_cons, Nat.succ_min_succ,
        List.take_succ_cons]
      exact congrArg (fun z => (a, b) :: z) (ih m)

/-- Claim C10, confirmed: for vectors of different lengths the provided Euclidean
    distance never fails, and equals the Euclidean distance of the items
    truncated to the first min(|a.vector|, |b.vector|) components — zip
    stops at the shorter vector, silently ignoring the longer one's tail. -/
theorem C10_truncated_euclidean (a b : VectorItem) :
    EuclideanDistance.calculate a b =
      EuclideanDistance.calculate
        ⟨a.id, a.vector.take (min a.vector.length b.vector.length)⟩
        ⟨b.id, b.vector.take (min a.vector.length b.vector.length)⟩ := by
  unfold EuclideanDistance.calculate
  rw [← zip_take_min]

/-! ### Basic lemmas about the node-table operations -/

theorem findNode_mem_id {t : NodeTable} {i : Nat} {n : Node}
    (h : findNode t i = some n) : n ∈ t ∧ n.id = i := by
  unfold findNode at h
  refine ⟨List.mem_of_find?_eq_some h, ?_⟩
  have h2 := List.find?_some h
  simpa using h2

theorem findNode_isSome_iff {t : NodeTable} {i : Nat} :
    (findNode t i).isSome = true ↔ i ∈ t.map (fun n => n.id) := by
  unfold findNode
  rw [List.find?_isSome]
  simp only [List.mem_map, beq_iff_eq]

theorem findNode_isSome_exists {t : NodeTable} {i : Nat}
    (h : (findNode t i).isSome = true) : ∃ n, findNode t i = some n := by
  cases hf : findNode t i with
  | none => rw [hf] at h; simp at h
  | some n => exact ⟨n, rfl⟩

theorem findNode_append_left {t1 t2 : NodeTable} {i : Nat} {n : Node}
    (h : findNode t1 i = some n) : findNode (t1 ++ t2) i = some n := by
  unfold findNode at h ⊢
  induction t1 with
  | nil => simp [List.find?] at h
  | cons a t ih =>
    simp only [List.cons_append, List.find?]
    cases hb : (a.id == i) with
    | true => simpa [List.find?, hb] using h
    | false =>
      simp only [List.find?, hb] at h
      exact ih h

theorem findNode_append_right {t1 t2 : NodeTable} {i : Nat}
    (h : findNode t1 i = none) : findNode (t1 ++ t2) i = findNode t2 i := by
  unfold findNode at h ⊢
  induction t1 with
  | nil => simp
  | cons a t ih =>
    simp only [List.find?] at h
    cases hb : (a.id == i) with
    | true => simp [hb] at h
    | false =>
      simp only [hb] at h
      simpa [List.find?, hb] using ih h

theorem skel_findNode {t t' : NodeTable} (hsk : t'.map skel = t.map skel)
    (i : Nat) : (findNode t' i).map skel = (findNode t i).map skel := by
  induction t generalizing t' with
  | nil =>
    cases t' with
    | nil => rfl
    | cons b t2 => simp at hsk
  | cons a t ih =>
    cases t' with
    | nil => simp at hsk
    | cons b t2 =>
      simp only [List.map_cons, List.cons.injEq] at hsk
      obtain ⟨hab, htl⟩ := hsk
      have hid : b.id = a.id := congrArg Prod.fst hab
      unfold findNode
      simp only [List.find?, hid]
      cases hb : (a.id == i) with
      | true => simpa [hab] using rfl
      | false => exact ih htl

theorem skel_findNode_isSome {t t' : NodeTable}
    (hsk : t'.map skel = t.map skel) (i : Nat) :
    (findNode t' i).isSome = (findNode t i).isSome := by
  have h := skel_findNode hsk i
  cases h1 : findNode t' i <;> cases h2 : findNode t i <;>
    rw [h1, h2] at h <;> simp_all

theorem map_id_of_map_skel {t t' : NodeTable}
    (hsk : t'.map skel = t.map skel) :
    t'.map (fun n => n.id) = t.map (fun n => n.id) := by
  have : ∀ u : NodeTable, u.map (fun n => n.id) = (u.map skel).map (fun p => p.1) := by
    intro u
    rw [List.map_map]
    rfl
  rw [this, this, hsk]

theorem map_layer_of_map_skel {t t' : NodeTable}
    (hsk : t'.map skel = t.map skel) :
    t'.map (fun n => n.layer) = t.map (fun n => n.layer) := by
  have : ∀ u : NodeTable, u.map (fun n => n.layer) = (u.map skel).map (fun p => p.2.1) := by
    intro u
    rw [List.map_map]
    rfl
  rw [this, this, hsk]

theorem modifyNode_skel {t : NodeTable} {i : Nat} {f : Node → Node}
    (hf : ∀ m, skel (f m) = skel m) :
    (modifyNode t i f).map skel = t.map skel := by
  unfold modifyNode
  induction t with
  | nil => rfl
  | cons a t ih =>
    simp only [List.map_cons]
    have h1 : skel (if (a.id == i) = true then f a else a) = skel a := by
      by_cases hb : (a.id == i) = true
      · rw [if_pos hb]
        exact hf a
      · rw [if_neg hb]
    rw [h1, ih]

theorem mem_modifyNode {t : NodeTable} {i : Nat} {f : Node → Node} {m : Node}
    (h : m ∈ modifyNode t i f) : m ∈ t ∨ ∃ m0 ∈ t, m = f m0 := by
  unfold modifyNode at h
  obtain ⟨m0, hm0, he⟩ := List.mem_map.mp h
  by_cases hb : (m0.id == i) = true
  · right
    exact ⟨m0, hm0, by rw [← he, if_pos hb]⟩
  · left
    rw [← he, if_neg hb]
    exact hm0

theorem mem_insertNode {t : NodeTable} {n m : Node}
    (h : m ∈ insertNode t n) : m = n ∨ m ∈ t := by
  unfold insertNode at h
  split at h
  · obtain ⟨m0, hm0, he⟩ := List.mem_map.mp h
    by_cases hb : (m0.id == n.id) = true
    · left
      rw [← he, if_pos hb]
    · right
      rw [← he, if_neg hb]
      exact hm0
  · rcases List.mem_append.mp h with h1 | h1
    · right
      exact h1
    · left
      simpa using h1

theorem map_overwrite_id (t : NodeTable) (n : Node) :
    (t.map (fun m => if m.id == n.id then n else m)).map (fun m => m.id)
      = t.map (fun m => m.id) := by
  induction t with
  | nil => rfl
  | cons a t ih =>
    simp only [List.map_cons]
    have h1 : (if (a.id == n.id) = true then n else a).id = a.id := by
      by_cases hb : (a.id == n.id) = true
      · rw [if_pos hb]
        exact (beq_iff_eq.mp hb).symm
      · rw [if_neg hb]
    rw [h1, ih]

theorem insertNode_map_id (t : NodeTable) (n : Node) :
    (insertNode t n).map (fun m => m.id) = t.map (fun m => m.id) ∨
    (insertNode t n).map (fun m => m.id) = t.map (fun m => m.id) ++ [n.id] := by
  unfold insertNode
  split
  · left
    exact map_overwrite_id t n
  · right
    simp

theorem insertNode_ne_nil (t : NodeTable) (n : Node) : insertNode t n ≠ [] := by
  unfold insertNode
  split
  · intro h
    have := congrArg List.length h
    simp at this
    rename_i hany
    rw [this] at hany
    simp [List.any] at hany
  · simp

theorem findNode_insertNode_isSome {t : NodeTable} {n : Node} {j : Nat}
    (h : (findNode t j).isSome = true) :
    (findNode (insertNode t n) j).isSome = true := by
  rw [findNode_isSome_iff] at h ⊢
  rcases insertNode_map_id t n with he | he
  · rw [he]
    exact h
  · rw [he]
    exact List.mem_append.mpr (Or.inl h)

theorem findNode_insertNode_self (t : NodeTable) (n : Node) :
    (findNode (insertNode t n) n.id).isSome = true := by
  rw [findNode_isSome_iff]
  rcases insertNode_map_id t n with he | he
  · rw [he]
    unfold insertNode at he
    by_cases hany : (t.any (fun m => m.id == n.id)) = true
    · obtain ⟨m, hm, hb⟩ := List.any_eq_true.mp hany
      exact List.mem_map.mpr ⟨m, hm, beq_iff_eq.mp hb⟩
    · exfalso
      rw [if_neg hany] at he
      have := congrArg List.length he
      simp at this
  · rw [he]
    exact List.mem_append.mpr (Or.inr (by simp))

/-! ### popMin lemmas -/

theorem popMin_none_iff (l : List Neighbor) : popMin l = none ↔ l = [] := by
  cases l with
  | nil => simp [popMin]
  | cons a rest =>
    constructor
    · intro h
      exfalso
      simp only [popMin] at h
      cases hp : popMin rest with
      | none =>
        exact absurd (by simpa [hp] using h) (by simp : ¬(some (a, ([] : List Neighbor)) = none))
      | some p =>
        cases p with
        | mk m r1 =>
          simp only [hp] at h
          by_cases hle : a.distance ≤ m.distance
          · rw [if_pos hle] at h
            exact absurd h (by simp)
          · rw [if_neg hle] at h
            exact absurd h (by simp)
    · intro h
      exact absurd h (by simp)

theorem popMin_perm {l : List Neighbor} {m : Neighbor} {rest : List Neighbor}
    (h : popMin l = some (m, rest)) : l.Perm (m :: rest) := by
  induction l generalizing m rest with
  | nil => simp [popMin] at h
  | cons a tail ih =>
    simp only [popMin] at h
    cases hp : popMin tail with
    | none =>
      simp only [hp] at h
      have ht : tail = [] := (popMin_none_iff tail).mp hp
      subst ht
      simp only [Option.some.injEq, Prod.mk.injEq] at h
      obtain ⟨h1, h2⟩ := h
      rw [← h1, ← h2]
    | some p =>
      cases p with
      | mk m1 rest1 =>
        simp only [hp] at h
        have hperm := ih hp
        by_cases hle : a.distance ≤ m1.distance
        · rw [if_pos hle] at h
          simp only [Option.some.injEq, Prod.mk.injEq] at h
          obtain ⟨h1, h2⟩ := h
          rw [← h1, ← h2]
        · rw [if_neg hle] at h
          simp only [Option.some.injEq, Prod.mk.injEq] at h
          obtain ⟨h1, h2⟩ := h
          rw [← h1, ← h2]
          exact (hperm.cons a).trans (List.Perm.swap m1 a rest1)

/-! ### Except plumbing -/

theorem ok_bind {α β : Type} (a : α) (f : α → Except String β) :
    (Except.ok a >>= f) = f a := rfl

theorem bind_ok_iff {α β : Type} (x : Except String α) (f : α → Except String β)
    (b : β) : (x >>= f) = .ok b ↔ ∃ a, x = .ok a ∧ f a = .ok b := by
  cases x with
  | ok a => simp [ok_bind]
  | error e =>
    constructor
    · intro h
      exact absurd h (by simp [Bind.bind, Except.bind])
    · rintro ⟨a, ha, _⟩
      exact absurd ha (by simp)

theorem orPanic_ok_iff {α : Type} (o : Option α) (msg : String) (a : α) :
    orPanic o msg = .ok a ↔ o = some a := by
  cases o <;> simp [orPanic]

theorem isOkB_iff {α : Type} (x : Except String α) :
    isOkB x = true ↔ ∃ a, x = .ok a := by
  cases x <;> simp [isOkB]

/-! ### select_neighbors lemmas -/

theorem diversityCheck_ok {dist : DistFn} {t : NodeTable} {c : Neighbor}
    {sel : List Nat} (hc : (findNode t c.id).isSome = true)
    (hsel : ∀ x ∈ sel, (findNode t x).isSome = true) :
    ∃ b, diversityCheck dist t c sel = .ok b := by
  induction sel with
  | nil => exact ⟨true, rfl⟩
  | cons x rest ih =>
    obtain ⟨cn, hcn⟩ := findNode_isSome_exists hc
    obtain ⟨en, hen⟩ := findNode_isSome_exists (hsel x (List.mem_cons_self x rest))
    obtain ⟨b, hb⟩ := ih (fun y hy => hsel y (List.mem_cons_of_mem x hy))
    by_cases hlt : dist cn.item en.item < c.distance
    · refine ⟨false, ?_⟩
      simp only [diversityCheck, hcn, hen, orPanic, ok_bind, if_pos hlt]
    · refine ⟨b, ?_⟩
      simp only [diversityCheck, hcn, hen, orPanic, ok_bind, if_neg hlt]
      exact hb

theorem selLoop_ok {dist : DistFn} {t : NodeTable} {cs : List Neighbor}
    {sel : List Nat} (hcs : ∀ c ∈ cs, (findNode t c.id).isSome = true)
    (hsel : ∀ x ∈ sel, (findNode t x).isSome = true) :
    ∃ out, selLoop dist t cs sel = .ok out := by
  induction cs generalizing sel with
  | nil => exact ⟨sel, rfl⟩
  | cons c rest ih =>
    obtain ⟨b, hb⟩ := diversityCheck_ok (hcs c (List.mem_cons_self c rest)) hsel
    have hnext : ∀ x ∈ (if b then sel ++ [c.id] else sel),
        (findNode t x).isSome = true := by
      intro x hx
      split at hx
      · rcases List.mem_append.mp hx with h1 | h1
        · exact hsel x h1
        · have hxc : x = c.id := by simpa using h1
          rw [hxc]
          exact hcs c (List.mem_cons_self c rest)
      · exact hsel x hx
    obtain ⟨out, hout⟩ :=
      ih (fun c1 hc1 => hcs c1 (List.mem_cons_of_mem c hc1)) hnext
    refine ⟨out, ?_⟩
    show (diversityCheck dist t c sel >>= fun keep =>
      selLoop dist t rest (if keep then sel ++ [c.id] else sel)) = .ok out
    rw [hb, ok_bind]
    exact hout

theorem selLoop_length {dist : DistFn} {t : NodeTable} {cs : List Neighbor}
    {sel out : List Nat} (h : selLoop dist t cs sel = .ok out) :
    out.length ≤ sel.length + cs.length := by
  induction cs generalizing sel with
  | nil =>
    simp only [selLoop, Except.ok.injEq] at h
    rw [← h]
    simp
  | cons c rest ih =>
    simp only [selLoop] at h
    rw [bind_ok_iff] at h
    obtain ⟨keep, hk, hrest⟩ := h
    have hlen := ih hrest
    cases keep
    · simp [List.length_append] at hlen
      simp only [List.length_cons]
      omega
    · simp [List.length_append] at hlen
      simp only [List.length_cons]
      omega

theorem selLoop_subset {dist : DistFn} {t : NodeTable} {cs : List Neighbor}
    {sel out : List Nat} (h : selLoop dist t cs sel = .ok out) :
    ∀ x ∈ out, x ∈ sel ∨ x ∈ cs.map (fun c => c.id) := by
  induction cs generalizing sel with
  | nil =>
    simp only [selLoop, Except.ok.injEq] at h
    intro x hx
    left
    rw [h]
    exact hx
  | cons c rest ih =>
    simp only [selLoop] at h
    rw [bind_ok_iff] at h
    obtain ⟨keep, hk, hrest⟩ := h
    intro x hx
    rcases ih hrest x hx with h1 | h1
    · split at h1
      · rcases List.mem_append.mp h1 with h2 | h2
        · exact Or.inl h2
        · right
          have hxc : x = c.id := by simpa using h2
          simp [hxc]
      · exact Or.inl h1
    · right
      simp only [List.map_cons, List.mem_cons]
      exact Or.inr h1

theorem max_conn_eq (level : Nat) :
    (if (level == 0) = true then M_MAX0 else M) = M_max level := by
  by_cases h : level = 0
  · subst h
    decide
  · have hb : (level == 0) = false := by simpa using h
    rw [hb]
    simp [M_max, h]

theorem select_neighbors_length {dist : DistFn} {t : NodeTable}
    {query : VectorItem} {cs : List Neighbor} {level : Nat} {out : List Nat}
    (h : select_neighbors dist t query cs level = .ok out) :
    out.length ≤ M_max level := by
  unfold select_neighbors at h
  have h1 := selLoop_length h
  rw [← max_conn_eq level]
  calc out.length
      ≤ ((List.insertionSort neighborLE cs).take
          (if (level == 0) = true then M_MAX0 else M)).length := by
        simpa using h1
    _ ≤ (if (level == 0) = true then M_MAX0 else M) := by
        rw [List.length_take]
        exact Nat.min_le_left _ _

theorem select_neighbors_subset {dist : DistFn} {t : NodeTable}
    {query : VectorItem} {cs : List Neighbor} {level : Nat} {out : List Nat}
    (h : select_neighbors dist t query cs level = .ok out) :
    ∀ x ∈ out, x ∈ cs.map (fun c => c.id) := by
  unfold select_neighbors at h
  intro x hx
  rcases selLoop_subset h x hx with h1 | h1
  · simp at h1
  · obtain ⟨c, hc, he⟩ := List.mem_map.mp h1
    have hc2 : c ∈ List.insertionSort neighborLE cs := List.take_subset _ _ hc
    have hc3 : c ∈ cs := (List.perm_insertionSort neighborLE cs).mem_iff.mp hc2
    exact List.mem_map.mpr ⟨c, hc3, he⟩

theorem select_neighbors_ok (dist : DistFn) (t : NodeTable) (query : VectorItem)
    (cs : List Neighbor) (level : Nat)
    (hcs : ∀ c ∈ cs, (findNode t c.id).isSome = true) :
    ∃ out, select_neighbors dist t query cs level = .ok out := by
  unfold select_neighbors
  apply selLoop_ok
  · intro c hc
    have hc2 : c ∈ List.insertionSort neighborLE cs := List.take_subset _ _ hc
    exact hcs c ((List.perm_insertionSort neighborLE cs).mem_iff.mp hc2)
  · intro x hx
    simp at hx

theorem select_neighbors_single (dist : DistFn) (t : NodeTable)
    (query : VectorItem) (c : Neighbor) (level : Nat) :
    select_neighbors dist t query [c] level = .ok [c.id] := by
  unfold select_neighbors
  have h2 : (List.insertionSort neighborLE [c]).take
      (if (level == 0) = true then M_MAX0 else M) = [c] := by
    by_cases h : level = 0
    · subst h
      rfl
    · have hb : (level == 0) = false := by simpa using h
      rw [hb]
      rfl
  show selLoop dist t
      ((List.insertionSort neighborLE [c]).take
        (if (level == 0) = true then M_MAX0 else M)) [] = .ok [c.id]
  rw [h2]
  rfl

/-! ### searchLoop invariants: results hold pairwise-distinct ids that
resolve in the table, with distances as computed from the query -/

theorem stepNeighbor_cases (dist : DistFn) (t : NodeTable) (query : VectorItem)
    (ef : Nat) (furthest : Option ℚ) (v : List Nat) (c r : List Neighbor)
    (nid : Nat) :
    (nid ∈ v ∧ stepNeighbor dist t query ef furthest (v, c, r) nid = (v, c, r)) ∨
    (¬ nid ∈ v ∧
      stepNeighbor dist t query ef furthest (v, c, r) nid = (nid :: v, c, r)) ∨
    (¬ nid ∈ v ∧ ∃ nn rr, findNode t nid = some nn ∧
      stepNeighbor dist t query ef furthest (v, c, r) nid =
        (nid :: v, c ++ [⟨nid, dist query nn.item⟩], rr) ∧
      (rr = r ++ [⟨nid, dist query nn.item⟩] ∨
        ∃ m, popMin (r ++ [⟨nid, dist query nn.item⟩]) = some (m, rr))) := by
  by_cases hmem : nid ∈ v
  · left
    refine ⟨hmem, ?_⟩
    unfold stepNeighbor
    simp only [if_pos hmem]
  · cases hf : findNode t nid with
    | none =>
      right
      left
      refine ⟨hmem, ?_⟩
      unfold stepNeighbor
      simp [hmem, hf]
    | some nn =>
      by_cases hpush : (decide (r.length < ef) ||
          (match furthest with
            | none => true
            | some f => decide (dist query nn.item < f))) = true
      · right
        right
        refine ⟨hmem, nn, ?_⟩
        by_cases hev : ef < (r ++ [(⟨nid, dist query nn.item⟩ : Neighbor)]).length
        · cases hpm : popMin (r ++ [(⟨nid, dist query nn.item⟩ : Neighbor)]) with
          | none =>
            exact absurd ((popMin_none_iff _).mp hpm) (by simp)
          | some p =>
            refine ⟨p.2, rfl, ?_, Or.inr ⟨p.1, rfl⟩⟩
            unfold stepNeighbor
            simp [hmem, hf, hpush, hev, hpm]
            try (intro hle; exfalso; simp [List.length_append] at hev; omega)
        · refine ⟨r ++ [⟨nid, dist query nn.item⟩], rfl, ?_, Or.inl rfl⟩
          unfold stepNeighbor
          simp [hmem, hf, hpush, hev]
          intro hlt
          exfalso
          simp [List.length_append] at hev
          omega
      · right
        left
        refine ⟨hmem, ?_⟩
        unfold stepNeighbor
        simp [hmem, hf, hpush]

theorem stepNeighbor_inv (dist : DistFn) (t : NodeTable) (query : VectorItem)
    (ef : Nat) (furthest : Option ℚ) (v : List Nat) (c r : List Neighbor)
    (nid : Nat)
    (h1 : ∀ n ∈ r, n.id ∈ v)
    (h2 : (r.map (fun n => n.id)).Nodup)
    (h3 : ∀ n ∈ r, ∃ nd, findNode t n.id = some nd ∧
      n.distance = dist query nd.item) :
    (∀ n ∈ (stepNeighbor dist t query ef furthest (v, c, r) nid).2.2,
      n.id ∈ (stepNeighbor dist t query ef furthest (v, c, r) nid).1) ∧
    (((stepNeighbor dist t query ef furthest (v, c, r) nid).2.2.map
      (fun n => n.id)).Nodup) ∧
    (∀ n ∈ (stepNeighbor dist t query ef furthest (v, c, r) nid).2.2,
      ∃ nd, findNode t n.id = some nd ∧ n.distance = dist query nd.item) ∧
    (∀ x ∈ v, x ∈ (stepNeighbor dist t query ef furthest (v, c, r) nid).1) := by
  rcases stepNeighbor_cases dist t query ef furthest v c r nid with
    ⟨hmem, he⟩ | ⟨hmem, he⟩ | ⟨hmem, nn, rr, hf, he, hrr⟩
  · rw [he]
    exact ⟨h1, h2, h3, fun x hx => hx⟩
  · rw [he]
    exact ⟨fun n hn => List.mem_cons_of_mem _ (h1 n hn), h2, h3,
      fun x hx => List.mem_cons_of_mem _ hx⟩
  · rw [he]
    have hnotin : ¬ nid ∈ r.map (fun n => n.id) := by
      intro hin
      obtain ⟨n, hn, hne⟩ := List.mem_map.mp hin
      exact hmem (hne ▸ h1 n hn)
    have happ1 : ∀ n ∈ r ++ [(⟨nid, dist query nn.item⟩ : Neighbor)],
        n.id ∈ nid :: v := by
      intro n hn
      rcases List.mem_append.mp hn with hn1 | hn1
      · exact List.mem_cons_of_mem _ (h1 n hn1)
      · have : n = ⟨nid, dist query nn.item⟩ := by simpa using hn1
        rw [this]
        exact List.mem_cons_self _ _
    have happ2 : ((r ++ [(⟨nid, dist query nn.item⟩ : Neighbor)]).map
        (fun n => n.id)).Nodup := by
      rw [List.map_append]
      simp only [List.map_cons, List.map_nil]
      rw [List.nodup_append]
      refine ⟨h2, List.nodup_singleton _, ?_⟩
      intro a ha hb
      have hae : a = nid := by simpa using hb
      exact hnotin (hae ▸ ha)
    have happ3 : ∀ n ∈ r ++ [(⟨nid, dist query nn.item⟩ : Neighbor)],
        ∃ nd, findNode t n.id = some nd ∧ n.distance = dist query nd.item := by
      intro n hn
      rcases List.mem_append.mp hn with hn1 | hn1
      · exact h3 n hn1
      · have : n = ⟨nid, dist query nn.item⟩ := by simpa using hn1
        rw [this]
        exact ⟨nn, hf, rfl⟩
    rcases hrr with hrr | ⟨m, hpm⟩
    · rw [hrr]
      exact ⟨happ1, happ2, happ3, fun x hx => List.mem_cons_of_mem _ hx⟩
    · have hperm := popMin_perm hpm
      have hsub : ∀ n ∈ rr, n ∈ r ++ [(⟨nid, dist query nn.item⟩ : Neighbor)] := by
        intro n hn
        exact hperm.mem_iff.mpr (List.mem_cons_of_mem m hn)
      refine ⟨fun n hn => happ1 n (hsub n hn), ?_,
        fun n hn => happ3 n (hsub n hn), fun x hx => List.mem_cons_of_mem _ hx⟩
      have hpm2 : ((r ++ [(⟨nid, dist query nn.item⟩ : Neighbor)]).map
          (fun n => n.id)).Perm ((m :: rr).map (fun n => n.id)) := hperm.map _
      have := (hpm2.nodup_iff).mp happ2
      simp only [List.map_cons] at this
      exact (List.nodup_cons.mp this).2

theorem foldl_stepNeighbor_inv (dist : DistFn) (t : NodeTable)
    (query : VectorItem) (ef : Nat) (furthest : Option ℚ) (ids : List Nat) :
    ∀ (v : List Nat) (c r : List Neighbor),
    (∀ n ∈ r, n.id ∈ v) →
    ((r.map (fun n => n.id)).Nodup) →
    (∀ n ∈ r, ∃ nd, findNode t n.id = some nd ∧
      n.distance = dist query nd.item) →
    ((∀ n ∈ (ids.foldl (stepNeighbor dist t query ef furthest) (v, c, r)).2.2,
      n.id ∈ (ids.foldl (stepNeighbor dist t query ef furthest) (v, c, r)).1) ∧
    (((ids.foldl (stepNeighbor dist t query ef furthest) (v, c, r)).2.2.map
      (fun n => n.id)).Nodup) ∧
    (∀ n ∈ (ids.foldl (stepNeighbor dist t query ef furthest) (v, c, r)).2.2,
      ∃ nd, findNode t n.id = some nd ∧ n.distance = dist query nd.item)) := by
  induction ids with
  | nil => intro v c r h1 h2 h3; exact ⟨h1, h2, h3⟩
  | cons nid rest ih =>
    intro v c r h1 h2 h3
    obtain ⟨g1, g2, g3, _⟩ :=
      stepNeighbor_inv dist t query ef furthest v c r nid h1 h2 h3
    simp only [List.foldl_cons]
    exact ih _ _ _ g1 g2 g3

theorem searchLoop_inv (dist : DistFn) (t : NodeTable) (query : VectorItem)
    (level ef : Nat) (fuel : Nat) :
    ∀ (v : List Nat) (c r : List Neighbor),
    (∀ n ∈ r, n.id ∈ v) →
    ((r.map (fun n => n.id)).Nodup) →
    (∀ n ∈ r, ∃ nd, findNode t n.id = some nd ∧
      n.distance = dist query nd.item) →
    (((searchLoop dist t query level ef fuel v c r).map (fun n => n.id)).Nodup ∧
      ∀ n ∈ searchLoop dist t query level ef fuel v c r,
        ∃ nd, findNode t n.id = some nd ∧ n.distance = dist query nd.item) := by
  induction fuel with
  | zero =>
    intro v c r h1 h2 h3
    exact ⟨h2, h3⟩
  | succ fuel ih =>
    intro v c r h1 h2 h3
    simp only [searchLoop]
    cases hpm : popMin c with
    | none => exact ⟨h2, h3⟩
    | some p =>
      cases p with
      | mk current cands1 =>
        by_cases hbn : (match minD r with
          | none => false
          | some f => decide (f < current.distance)) = true
        · simp only [hbn, if_true]
          exact ⟨h2, h3⟩
        · simp only [hbn, if_false, Bool.false_eq_true]
          cases hf : findNode t current.id with
          | none => exact ih v cands1 r h1 h2 h3
          | some node =>
            by_cases hlev : level < node.connections.length
            · simp only [if_pos hlev]
              obtain ⟨g1, g2, g3⟩ := foldl_stepNeighbor_inv dist t query ef
                (minD r) (node.connections.getD level []) v cands1 r h1 h2 h3
              exact ih _ _ _ g1 g2 g3
            · simp only [if_neg hlev]
              exact ih v cands1 r h1 h2 h3

theorem search_at_layer_props {dist : DistFn} {t : NodeTable} {ep : Nat}
    {query : VectorItem} {level ef : Nat} {out : List Neighbor}
    (h : search_at_layer dist t ep query level ef = .ok out) :
    ((out.map (fun n => n.id)).Nodup ∧
      ∀ n ∈ out, ∃ nd, findNode t n.id = some nd ∧
        n.distance = dist query nd.item) := by
  unfold search_at_layer at h
  rw [bind_ok_iff] at h
  obtain ⟨entry_node, he, h⟩ := h
  rw [orPanic_ok_iff] at he
  split at h
  · simp only [Except.ok.injEq] at h
    rw [← h]
    simp
  · simp only [Except.ok.injEq] at h
    obtain ⟨hnd, hlink⟩ := searchLoop_inv dist t query level ef (t.length + 1)
      [ep] [⟨ep, dist query entry_node.item⟩] [⟨ep, dist query entry_node.item⟩]
      (by intro n hn; simp at hn; simp [hn])
      (by simp)
      (by intro n hn; simp at hn; rw [hn]; exact ⟨entry_node, he, rfl⟩)
    rw [← h]
    constructor
    · have hperm := (List.perm_insertionSort neighborGE
        (searchLoop dist t query level ef (t.length + 1)
          [ep] [⟨ep, dist query entry_node.item⟩]
          [⟨ep, dist query entry_node.item⟩])).map (fun n => n.id)
      exact hperm.nodup_iff.mpr hnd
    · intro n hn
      exact hlink n ((List.perm_insertionSort neighborGE _).mem_iff.mp hn)

theorem search_at_layer_length {dist : DistFn} {t : NodeTable} {ep : Nat}
    {query : VectorItem} {level ef : Nat} {out : List Neighbor}
    (h : search_at_layer dist t ep query level ef = .ok out) :
    out.length ≤ t.length := by
  obtain ⟨hnd, hlink⟩ := search_at_layer_props h
  have hsub : (out.map (fun n => n.id)) ⊆ t.map (fun n => n.id) := by
    intro x hx
    obtain ⟨n, hn, hne⟩ := List.mem_map.mp hx
    obtain ⟨nd, hnd2, _⟩ := hlink n hn
    rw [← hne]
    exact findNode_isSome_iff.mp (by rw [hnd2]; rfl)
  have hlen := (List.subperm_of_subset hnd hsub).length_le
  simpa using hlen

theorem search_at_layer_ok (dist : DistFn) (t : NodeTable) (ep : Nat)
    (query : VectorItem) (level ef : Nat)
    (hep : (findNode t ep).isSome = true) :
    ∃ out, search_at_layer dist t ep query level ef = .ok out := by
  obtain ⟨en, hen⟩ := findNode_isSome_exists hep
  unfold search_at_layer
  simp only [hen, orPanic, ok_bind]
  split
  · exact ⟨[], rfl⟩
  · exact ⟨_, rfl⟩

/-! ### updateReverse preservation lemmas -/

theorem modify_connset_skel (t : NodeTable) (nid level : Nat) (rsel : List Nat) :
    (modifyNode t nid (fun m =>
      if level < m.connections.length then
        { m with connections := m.connections.set level rsel }
      else m)).map skel = t.map skel :=
  modifyNode_skel (fun m => by split <;> rfl)

theorem getD_set_length_le_gen :
    ∀ (l : List (List Nat)) (i : Nat) (a : List Nat) (L : Nat) (f : Nat → Nat),
    (∀ K, (l.getD K []).length ≤ f K) → a.length ≤ f i →
    (((l.set i a).getD L []).length ≤ f L)
  | [], i, a, L, f, hl, ha => by simpa using hl L
  | x :: xs, 0, a, 0, f, hl, ha => by simpa using ha
  | x :: xs, 0, a, L + 1, f, hl, ha => by simpa using hl (L + 1)
  | x :: xs, i + 1, a, 0, f, hl, ha => by simpa using hl 0
  | x :: xs, i + 1, a, L + 1, f, hl, ha => by
    simp only [List.set, List.getD_cons_succ]
    exact getD_set_length_le_gen xs i a L (fun K => f (K + 1))
      (fun K => by simpa using hl (K + 1)) ha

theorem getD_set_length_le (l : List (List Nat)) (i : Nat) (a : List Nat)
    (L : Nat) (hl : ∀ K, (l.getD K []).length ≤ M_max K)
    (ha : a.length ≤ M_max i) :
    ((l.set i a).getD L []).length ≤ M_max L :=
  getD_set_length_le_gen l i a L M_max hl ha

theorem modify_connset_deg {t : NodeTable} {nid level : Nat} {rsel : List Nat}
    (hdeg : DegInvT t) (hlen : rsel.length ≤ M_max level) :
    DegInvT (modifyNode t nid (fun m =>
      if level < m.connections.length then
        { m with connections := m.connections.set level rsel }
      else m)) := by
  intro n hn L
  rcases mem_modifyNode hn with hn1 | ⟨m0, hm0, he⟩
  · exact hdeg n hn1 L
  · rw [he]
    split
    · exact getD_set_length_le m0.connections level rsel L (hdeg m0 hm0) hlen
    · exact hdeg m0 hm0 L

theorem modify_connset_connIn {t : NodeTable} {nid level : Nat}
    {rsel : List Nat} {keys : List Nat}
    (hin : ConnInT t keys) (hrsel : ∀ x ∈ rsel, x ∈ keys) :
    ConnInT (modifyNode t nid (fun m =>
      if level < m.connections.length then
        { m with connections := m.connections.set level rsel }
      else m)) keys := by
  intro n hn l hl i hi
  rcases mem_modifyNode hn with hn1 | ⟨m0, hm0, he⟩
  · exact hin n hn1 l hl i hi
  · rw [he] at hl
    split at hl
    · rcases List.mem_or_eq_of_mem_set hl with h2 | h2
      · exact hin m0 hm0 l h2 i hi
      · exact hrsel i (h2 ▸ hi)
    · exact hin m0 hm0 l hl i hi

theorem updateReverse_skel {dist : DistFn} {item : VectorItem}
    {node_id level : Nat} {sel : List Nat} {t t1 : NodeTable}
    (h : updateReverse dist item node_id level sel t = .ok t1) :
    t1.map skel = t.map skel := by
  induction sel generalizing t with
  | nil =>
    simp only [updateReverse, Except.ok.injEq] at h
    rw [← h]
  | cons nid rest ih =>
    simp only [updateReverse] at h
    rw [bind_ok_iff] at h
    obtain ⟨nn, hnn, h⟩ := h
    rw [bind_ok_iff] at h
    obtain ⟨rsel, hrsel, h⟩ := h
    calc t1.map skel = _ := ih h
      _ = t.map skel := modify_connset_skel t nid level rsel

theorem updateReverse_deg {dist : DistFn} {item : VectorItem}
    {node_id level : Nat} {sel : List Nat} {t t1 : NodeTable}
    (h : updateReverse dist item node_id level sel t = .ok t1)
    (hdeg : DegInvT t) : DegInvT t1 := by
  induction sel generalizing t with
  | nil =>
    simp only [updateReverse, Except.ok.injEq] at h
    rw [← h]
    exact hdeg
  | cons nid rest ih =>
    simp only [updateReverse] at h
    rw [bind_ok_iff] at h
    obtain ⟨nn, hnn, h⟩ := h
    rw [bind_ok_iff] at h
    obtain ⟨rsel, hrsel, h⟩ := h
    exact ih h (modify_connset_deg hdeg (select_neighbors_length hrsel))

theorem updateReverse_connIn {dist : DistFn} {item : VectorItem}
    {node_id level : Nat} {sel : List Nat} {t t1 : NodeTable} {keys : List Nat}
    (h : updateReverse dist item node_id level sel t = .ok t1)
    (hin : ConnInT t keys) (hnid : node_id ∈ keys) : ConnInT t1 keys := by
  induction sel generalizing t with
  | nil =>
    simp only [updateReverse, Except.ok.injEq] at h
    rw [← h]
    exact hin
  | cons nid rest ih =>
    simp only [updateReverse] at h
    rw [bind_ok_iff] at h
    obtain ⟨nn, hnn, h⟩ := h
    rw [bind_ok_iff] at h
    obtain ⟨rsel, hrsel, h⟩ := h
    have hrs : ∀ x ∈ rsel, x ∈ keys := by
      intro x hx
      have hx2 := select_neighbors_subset hrsel x hx
      simp at hx2
      rw [hx2]
      exact hnid
    exact ih h (modify_connset_connIn hin hrs)

theorem updateReverse_ok (dist : DistFn) (item : VectorItem)
    (node_id level : Nat) {sel : List Nat} {t : NodeTable}
    (hsel : ∀ x ∈ sel, (findNode t x).isSome = true) :
    ∃ t1, updateReverse dist item node_id level sel t = .ok t1 := by
  induction sel generalizing t with
  | nil => exact ⟨t, rfl⟩
  | cons nid rest ih =>
    obtain ⟨nn, hnn⟩ := findNode_isSome_exists (hsel nid (List.mem_cons_self nid rest))
    have hrest : ∀ x ∈ rest,
        (findNode (modifyNode t nid (fun m =>
          if level < m.connections.length then
            { m with connections := m.connections.set level [node_id] }
          else m)) x).isSome = true := by
      intro x hx
      rw [skel_findNode_isSome (modify_connset_skel t nid level [node_id]) x]
      exact hsel x (List.mem_cons_of_mem nid hx)
    obtain ⟨t1, ht1⟩ := ih hrest
    refine ⟨t1, ?_⟩
    show (orPanic (findNode t nid) "key not found" >>= fun nn =>
      select_neighbors dist t nn.item [⟨node_id, dist item nn.item⟩] level >>=
        fun reverse_selected =>
          updateReverse dist item node_id level rest
            (modifyNode t nid (fun m =>
              if level < m.connections.length then
                { m with connections := m.connections.set level reverse_selected }
              else m))) = .ok t1
    rw [hnn]
    show (select_neighbors dist t nn.item [⟨node_id, dist item nn.item⟩] level >>=
      fun reverse_selected =>
        updateReverse dist item node_id level rest
          (modifyNode t nid (fun m =>
            if level < m.connections.length then
              { m with connections := m.connections.set level reverse_selected }
            else m))) = .ok t1
    rw [select_neighbors_single, ok_bind]
    exact ht1

/-! ### addLevels preservation lemmas -/

theorem addLevels_skel {dist : DistFn} {ep : Nat} {item : VectorItem}
    {nid : Nat} {levels : List Nat} {t t1 : NodeTable}
    {conns conns1 : List (List Nat)}
    (h : addLevels dist ep item nid levels t conns = .ok (t1, conns1)) :
    t1.map skel = t.map skel := by
  induction levels generalizing t conns with
  | nil =>
    simp only [addLevels, Except.ok.injEq, Prod.mk.injEq] at h
    rw [← h.1]
  | cons level rest ih =>
    simp only [addLevels] at h
    rw [bind_ok_iff] at h
    obtain ⟨nb, hnb, h⟩ := h
    rw [bind_ok_iff] at h
    obtain ⟨selected, hsel, h⟩ := h
    rw [bind_ok_iff] at h
    obtain ⟨tm, htm, h⟩ := h
    calc t1.map skel = tm.map skel := ih h
      _ = t.map skel := updateReverse_skel htm

theorem addLevels_deg {dist : DistFn} {ep : Nat} {item : VectorItem}
    {nid : Nat} {levels : List Nat} {t t1 : NodeTable}
    {conns conns1 : List (List Nat)}
    (h : addLevels dist ep item nid levels t conns = .ok (t1, conns1))
    (hdeg : DegInvT t) : DegInvT t1 := by
  induction levels generalizing t conns with
  | nil =>
    simp only [addLevels, Except.ok.injEq, Prod.mk.injEq] at h
    rw [← h.1]
    exact hdeg
  | cons level rest ih =>
    simp only [addLevels] at h
    rw [bind_ok_iff] at h
    obtain ⟨nb, hnb, h⟩ := h
    rw [bind_ok_iff] at h
    obtain ⟨selected, hsel, h⟩ := h
    rw [bind_ok_iff] at h
    obtain ⟨tm, htm, h⟩ := h
    exact ih h (updateReverse_deg htm hdeg)

theorem addLevels_connIn {dist : DistFn} {ep : Nat} {item : VectorItem}
    {nid : Nat} {levels : List Nat} {t t1 : NodeTable}
    {conns conns1 : List (List Nat)} {keys : List Nat}
    (h : addLevels dist ep item nid levels t conns = .ok (t1, conns1))
    (hin : ConnInT t keys) (hnid : nid ∈ keys) : ConnInT t1 keys := by
  induction levels generalizing t conns with
  | nil =>
    simp only [addLevels, Except.ok.injEq, Prod.mk.injEq] at h
    rw [← h.1]
    exact hin
  | cons level rest ih =>
    simp only [addLevels] at h
    rw [bind_ok_iff] at h
    obtain ⟨nb, hnb, h⟩ := h
    rw [bind_ok_iff] at h
    obtain ⟨selected, hsel, h⟩ := h
    rw [bind_ok_iff] at h
    obtain ⟨tm, htm, h⟩ := h
    exact ih h (updateReverse_connIn htm hin hnid)

theorem addLevels_conns_bound {dist : DistFn} {ep : Nat} {item : VectorItem}
    {nid : Nat} {levels : List Nat} {t t1 : NodeTable}
    {conns conns1 : List (List Nat)}
    (h : addLevels dist ep item nid levels t conns = .ok (t1, conns1))
    (hc : ∀ L, (conns.getD L []).length ≤ M_max L) :
    ∀ L, (conns1.getD L []).length ≤ M_max L := by
  induction levels generalizing t conns with
  | nil =>
    simp only [addLevels, Except.ok.injEq, Prod.mk.injEq] at h
    rw [← h.2]
    exact hc
  | cons level rest ih =>
    simp only [addLevels] at h
    rw [bind_ok_iff] at h
    obtain ⟨nb, hnb, h⟩ := h
    rw [bind_ok_iff] at h
    obtain ⟨selected, hsel, h⟩ := h
    rw [bind_ok_iff] at h
    obtain ⟨tm, htm, h⟩ := h
    refine ih h ?_
    intro L
    split
    · exact getD_set_length_le conns level selected L hc
        (select_neighbors_length hsel)
    · exact hc L

theorem addLevels_conns_in {dist : DistFn} {ep : Nat} {item : VectorItem}
    {nid : Nat} {levels : List Nat} {t t1 : NodeTable}
    {conns conns1 : List (List Nat)} {keys : List Nat}
    (h : addLevels dist ep item nid levels t conns = .ok (t1, conns1))
    (hc : ∀ l ∈ conns, ∀ i ∈ l, i ∈ keys)
    (hkeys : ∀ x ∈ t.map (fun n => n.id), x ∈ keys) :
    ∀ l ∈ conns1, ∀ i ∈ l, i ∈ keys := by
  induction levels generalizing t conns with
  | nil =>
    simp only [addLevels, Except.ok.injEq, Prod.mk.injEq] at h
    rw [← h.2]
    exact hc
  | cons level rest ih =>
    simp only [addLevels] at h
    rw [bind_ok_iff] at h
    obtain ⟨nb, hnb, h⟩ := h
    rw [bind_ok_iff] at h
    obtain ⟨selected, hsel, h⟩ := h
    rw [bind_ok_iff] at h
    obtain ⟨tm, htm, h⟩ := h
    have hselkeys : ∀ x ∈ selected, x ∈ keys := by
      intro x hx
      have hx2 := select_neighbors_subset hsel x hx
      obtain ⟨n, hn, hne⟩ := List.mem_map.mp hx2
      obtain ⟨nd, hnd, _⟩ := (search_at_layer_props hnb).2 n hn
      refine hkeys x ?_
      rw [← hne]
      exact findNode_isSome_iff.mp (by rw [hnd]; rfl)
    have hkeys2 : ∀ x ∈ tm.map (fun n => n.id), x ∈ keys := by
      intro x hx
      refine hkeys x ?_
      rw [← map_id_of_map_skel (updateReverse_skel htm)]
      exact hx
    refine ih h ?_ hkeys2
    intro l hl i hi
    split at hl
    · rcases List.mem_or_eq_of_mem_set hl with h2 | h2
      · exact hc l h2 i hi
      · exact hselkeys i (h2 ▸ hi)
    · exact hc l hl i hi

theorem addLevels_ok (dist : DistFn) (ep : Nat) (item : VectorItem)
    (nid : Nat) (levels : List Nat) :
    ∀ (t : NodeTable) (conns : List (List Nat)),
    (findNode t ep).isSome = true →
    ∃ r, addLevels dist ep item nid levels t conns = .ok r := by
  induction levels with
  | nil =>
    intro t conns hep
    exact ⟨(t, conns), rfl⟩
  | cons level rest ih =>
    intro t conns hep
    obtain ⟨nb, hnb⟩ := search_at_layer_ok dist t ep item level
      (if level == 0 then EF_CONSTRUCTION else M) hep
    have hnbf : ∀ c ∈ nb, (findNode t c.id).isSome = true := by
      intro c hc
      obtain ⟨nd, hnd, _⟩ := (search_at_layer_props hnb).2 c hc
      rw [hnd]
      rfl
    obtain ⟨selected, hsel⟩ := select_neighbors_ok dist t item nb level hnbf
    have hself : ∀ x ∈ selected, (findNode t x).isSome = true := by
      intro x hx
      have hx2 := select_neighbors_subset hsel x hx
      obtain ⟨n, hn, hne⟩ := List.mem_map.mp hx2
      rw [← hne]
      exact hnbf n hn
    obtain ⟨tm, htm⟩ := updateReverse_ok dist item nid level hself
    have hep2 : (findNode tm ep).isSome = true := by
      rw [skel_findNode_isSome (updateReverse_skel htm) ep]
      exact hep
    obtain ⟨r, hr⟩ := ih tm
      (if level < conns.length then conns.set level selected else conns) hep2
    refine ⟨r, ?_⟩
    show (search_at_layer dist t ep item level
        (if level == 0 then EF_CONSTRUCTION else M) >>= fun neighbors =>
      select_neighbors dist t item neighbors level >>= fun selected =>
        updateReverse dist item nid level selected t >>= fun tm =>
          addLevels dist ep item nid rest tm
            (if level < conns.length then conns.set level selected
             else conns)) = .ok r
    rw [hnb, ok_bind, hsel, ok_bind, htm, ok_bind]
    exact hr

/-! ### add: success-path characterization and preservation of WF -/

theorem connInT_mono {t : NodeTable} {k k2 : List Nat}
    (h : ConnInT t k) (hm : ∀ x ∈ k, x ∈ k2) : ConnInT t k2 :=
  fun n hn l hl i hi => hm _ (h n hn l hl i hi)

theorem replicate_getD_nil :
    ∀ (k L : Nat), ((List.replicate k ([] : List Nat)).getD L []) = []
  | 0, _ => by simp
  | _ + 1, 0 => by simp
  | k + 1, L + 1 => by
    simp only [List.replicate, List.getD_cons_succ]
    exact replicate_getD_nil k L

theorem mem_keys_insertNode (t : NodeTable) (n : Node) (x : Nat)
    (hx : x ∈ t.map (fun m => m.id) ∨ x = n.id) :
    x ∈ (insertNode t n).map (fun m => m.id) := by
  rcases hx with hx | hx
  · rcases insertNode_map_id t n with he | he <;> rw [he]
    · exact hx
    · exact List.mem_append.mpr (Or.inl hx)
  · rw [hx]
    exact findNode_isSome_iff.mp (findNode_insertNode_self t n)

theorem add_ok_cases {dist : DistFn} {s : HnswIndex} {item : VectorItem}
    {lvl : Nat} {s1 : HnswIndex} (h : add dist s item lvl = .ok s1) :
    (s.nodes = [] ∧ s1 = ⟨insertNode s.nodes
        ⟨item.id, List.replicate (lvl + 1) [], item, lvl⟩, some item.id⟩) ∨
    (s.nodes ≠ [] ∧ ∃ e res ep1,
      s.entry_point = some e ∧
      addLevels dist e item item.id ((List.range (lvl + 1)).reverse) s.nodes
        (List.replicate (lvl + 1) []) = .ok res ∧
      s1.nodes = insertNode res.1 ⟨item.id, res.2, item, lvl⟩ ∧
      findNode s1.nodes e = some ep1 ∧
      ((ep1.layer < lvl ∧ s1.entry_point = some item.id) ∨
        (¬ ep1.layer < lvl ∧ s1.entry_point = s.entry_point))) := by
  unfold add at h
  split at h
  · left
    next hemp =>
    refine ⟨by simpa using hemp, ?_⟩
    simp only [Except.ok.injEq] at h
    exact h.symm
  · right
    next hemp =>
    refine ⟨by simpa using hemp, ?_⟩
    rw [bind_ok_iff] at h
    obtain ⟨e, he, h⟩ := h
    rw [orPanic_ok_iff] at he
    rw [bind_ok_iff] at h
    obtain ⟨ep_node, hepn, h⟩ := h
    rw [orPanic_ok_iff] at hepn
    rw [bind_ok_iff] at h
    obtain ⟨res, hres, h⟩ := h
    rw [bind_ok_iff] at h
    obtain ⟨ep_node1, hepn1, h⟩ := h
    rw [orPanic_ok_iff] at hepn1
    by_cases hlay : ep_node1.layer < lvl
    · rw [if_pos hlay] at h
      simp only [Except.ok.injEq] at h
      refine ⟨e, res, ep_node1, he, hres, by rw [← h], ?_, Or.inl ⟨hlay, by rw [← h]⟩⟩
      rw [← h]
      exact hepn1
    · rw [if_neg hlay] at h
      simp only [Except.ok.injEq] at h
      refine ⟨e, res, ep_node1, he, hres, by rw [← h], ?_, Or.inr ⟨hlay, by rw [← h]⟩⟩
      rw [← h]
      exact hepn1

theorem add_ok {dist : DistFn} {s : HnswIndex} (hep : EpInv s)
    (item : VectorItem) (lvl : Nat) :
    ∃ s1, add dist s item lvl = .ok s1 := by
  by_cases hemp : s.nodes.isEmpty = true
  · refine ⟨⟨insertNode s.nodes
      ⟨item.id, List.replicate (lvl + 1) [], item, lvl⟩, some item.id⟩, ?_⟩
    unfold add
    rw [if_pos hemp]
  · obtain ⟨e, he⟩ : ∃ e, s.entry_point = some e := by
      cases hep0 : s.entry_point with
      | none =>
        exfalso
        have := hep.1.mp hep0
        rw [this] at hemp
        simp at hemp
      | some e => exact ⟨e, rfl⟩
    have hfind := hep.2 e he
    obtain ⟨ep_node, hepn⟩ := findNode_isSome_exists hfind
    obtain ⟨res, hres⟩ := addLevels_ok dist e item item.id
      ((List.range (lvl + 1)).reverse) s.nodes
      (List.replicate (lvl + 1) []) hfind
    have hf1 : (findNode res.1 e).isSome = true := by
      rw [skel_findNode_isSome (addLevels_skel hres) e]
      exact hfind
    have hf2 : (findNode (insertNode res.1 ⟨item.id, res.2, item, lvl⟩) e).isSome
        = true := findNode_insertNode_isSome hf1
    obtain ⟨ep1, hep1⟩ := findNode_isSome_exists hf2
    by_cases hlay : ep1.layer < lvl
    · refine ⟨⟨insertNode res.1 ⟨item.id, res.2, item, lvl⟩, some item.id⟩, ?_⟩
      unfold add
      rw [if_neg hemp]
      simp only [he, hepn, hres, hep1, orPanic, ok_bind, if_pos hlay]
    · refine ⟨⟨insertNode res.1 ⟨item.id, res.2, item, lvl⟩, s.entry_point⟩, ?_⟩
      unfold add
      rw [if_neg hemp]
      simp only [he, hepn, hres, hep1, orPanic, ok_bind, if_neg hlay]

theorem add_WF {dist : DistFn} {s : HnswIndex} {item : VectorItem} {lvl : Nat}
    {s1 : HnswIndex} (h : add dist s item lvl = .ok s1) (hwf : WF s) : WF s1 := by
  rcases add_ok_cases h with ⟨hemp, hs1⟩ |
    ⟨hne, e, res, ep1, he, hres, hnodes, hepn1, hbranch⟩
  · rw [hemp] at hs1
    have hins : insertNode ([] : NodeTable)
        ⟨item.id, List.replicate (lvl + 1) [], item, lvl⟩
        = [⟨item.id, List.replicate (lvl + 1) [], item, lvl⟩] := rfl
    rw [hins] at hs1
    subst hs1
    refine ⟨⟨?_, ?_⟩, ?_, ?_⟩
    · simp
    · intro e2 he2
      simp only [Option.some.injEq] at he2
      rw [← he2]
      simp [findNode, List.find?]
    · intro n hn l hl i hi
      simp only [List.mem_singleton] at hn
      rw [hn] at hl
      have hl2 : l = [] := by simpa using hl
      rw [hl2] at hi
      simp at hi
    · intro n hn L
      simp only [List.mem_singleton] at hn
      rw [hn]
      simp [replicate_getD_nil]
  · have hkeys : ∀ x ∈ s.nodes.map (fun m => m.id) ++ [item.id],
        x ∈ s1.nodes.map (fun m => m.id) := by
      intro x hx
      rw [hnodes]
      apply mem_keys_insertNode
      rcases List.mem_append.mp hx with hx1 | hx1
      · left
        rw [map_id_of_map_skel (addLevels_skel hres)]
        exact hx1
      · right
        simpa using hx1
    refine ⟨⟨?_, ?_⟩, ?_, ?_⟩
    · constructor
      · intro hn
        rcases hbranch with ⟨_, h1⟩ | ⟨_, h1⟩ <;> rw [h1] at hn
        · simp at hn
        · exfalso
          exact hne (hwf.1.1.mp hn)
      · intro hn
        exfalso
        rw [hnodes] at hn
        exact insertNode_ne_nil _ _ hn
    · intro e2 he2
      rcases hbranch with ⟨_, h1⟩ | ⟨_, h1⟩ <;> rw [h1] at he2
      · simp only [Option.some.injEq] at he2
        rw [← he2, hnodes]
        exact findNode_insertNode_self _ _
      · rw [he] at he2
        simp only [Option.some.injEq] at he2
        rw [← he2, hnodes]
        apply findNode_insertNode_isSome
        rw [skel_findNode_isSome (addLevels_skel hres) e]
        exact hwf.1.2 e he
    · -- ConnInT for the new state
      have hinKeys : ConnInT s.nodes (s.nodes.map (fun m => m.id) ++ [item.id]) :=
        connInT_mono hwf.2.1 (fun x hx => List.mem_append.mpr (Or.inl hx))
      have hres1 : ConnInT res.1 (s.nodes.map (fun m => m.id) ++ [item.id]) :=
        addLevels_connIn hres hinKeys
          (List.mem_append.mpr (Or.inr (by simp)))
      have hconns : ∀ l ∈ res.2, ∀ i ∈ l,
          i ∈ s.nodes.map (fun m => m.id) ++ [item.id] := by
        refine addLevels_conns_in hres ?_ ?_
        · intro l hl i hi
          have : l = [] := List.eq_of_mem_replicate hl
          rw [this] at hi
          simp at hi
        · intro x hx
          exact List.mem_append.mpr (Or.inl hx)
      intro n hn l hl i hi
      rw [hnodes] at hn
      rcases mem_insertNode hn with hn1 | hn1
      · rw [hn1] at hl
        exact hkeys i (hconns l hl i hi)
      · exact hkeys i (hres1 n hn1 l hl i hi)
    · -- DegInvT for the new state
      have hdeg1 : DegInvT res.1 :=
        addLevels_deg hres hwf.2.2
      have hc2 : ∀ L, (res.2.getD L []).length ≤ M_max L := by
        refine addLevels_conns_bound hres ?_
        intro L
        rw [replicate_getD_nil]
        simp
      intro n hn L
      rw [hnodes] at hn
      rcases mem_insertNode hn with hn1 | hn1
      · rw [hn1]
        exact hc2 L
      · exact hdeg1 n hn1 L

theorem emptyIndex_WF : WF emptyIndex := by
  refine ⟨⟨by simp [emptyIndex], ?_⟩, ?_, ?_⟩
  · intro e he
    simp [emptyIndex] at he
  · intro n hn
    simp [emptyIndex] at hn
  · intro n hn
    simp [emptyIndex] at hn

theorem reachable_WF {dist : DistFn} {s : HnswIndex}
    (h : Reachable dist s) : WF s := by
  induction h with
  | empty => exact emptyIndex_WF
  | step hr hlvl hadd ih => exact add_WF hadd ih

/-! ### C1 -/

theorem find_overwrite_core (n : Node) :
    ∀ (t : NodeTable), t.any (fun m => m.id == n.id) = true →
    List.find? (fun m => m.id == n.id)
      (t.map (fun m => if m.id == n.id then n else m)) = some n := by
  intro t
  induction t with
  | nil =>
    intro h
    simp at h
  | cons a rest ih =>
    intro h
    by_cases hb : (a.id == n.id) = true
    · simp only [List.map_cons, if_pos hb, List.find?]
      simp
    · have hb' : (a.id == n.id) = false := by
        simpa using hb
      simp only [List.map_cons, hb', Bool.false_eq_true, if_false, List.find?]
      apply ih
      simp only [List.any_cons, hb', Bool.false_or] at h
      exact h

theorem findNode_insertNode_overwrite {t : NodeTable} {n : Node}
    (h : t.any (fun m => m.id == n.id) = true) :
    findNode (insertNode t n) n.id = some n := by
  unfold insertNode findNode
  rw [if_pos h]
  exact find_overwrite_core n t h

theorem insertNode_length_overwrite {t : NodeTable} {n : Node}
    (h : t.any (fun m => m.id == n.id) = true) :
    (insertNode t n).length = t.length := by
  unfold insertNode
  rw [if_pos h]
  simp

theorem length_of_map_skel {t t' : NodeTable}
    (hsk : t'.map skel = t.map skel) : t'.length = t.length := by
  have h := congrArg List.length hsk
  simpa using h

theorem any_id_of_mem {t : NodeTable} {i : Nat}
    (h : i ∈ t.map (fun m => m.id)) :
    t.any (fun m => m.id == i) = true := by
  obtain ⟨m, hm, he⟩ := List.mem_map.mp h
  exact List.any_eq_true.mpr ⟨m, hm, by simp [he]⟩

/-- Claim C1, amended: `add` does not reject duplicate ids — an add whose id
    is already stored is never answered with a DuplicateId failure: whenever
    the call returns, it has OVERWRITTEN the stored node with the new item
    and sampled layer, leaving the node count unchanged. (No dimension or
    finiteness validation exists either, per the counterexample; the theorem
    is conditioned on the call returning, so source runs that panic on
    incomparable NaN distances force nothing here.) -/
theorem C1_add_overwrites (dist : DistFn) (s : HnswIndex) (item : VectorItem)
    (lvl : Nat) (s1 : HnswIndex) (h : Reachable dist s)
    (hdup : (findNode s.nodes item.id).isSome = true)
    (hadd : add dist s item lvl = .ok s1) :
    (findNode s1.nodes item.id).map (fun n => (n.item, n.layer))
      = some (item, lvl) ∧
    s1.nodes.length = s.nodes.length := by
  rcases add_ok_cases hadd with ⟨hemp, _⟩ |
    ⟨hne, e, res, ep1, he, hres, hnodes, _, _⟩
  · rw [hemp] at hdup
    simp [findNode] at hdup
  · have hid : item.id ∈ res.1.map (fun m => m.id) := by
      rw [map_id_of_map_skel (addLevels_skel hres)]
      exact findNode_isSome_iff.mp hdup
    have hany : res.1.any (fun m => m.id == item.id) = true := any_id_of_mem hid
    have h1 : findNode (insertNode res.1 ⟨item.id, res.2, item, lvl⟩) item.id
        = some ⟨item.id, res.2, item, lvl⟩ :=
      findNode_insertNode_overwrite hany
    constructor
    · rw [hnodes, h1]
      rfl
    · rw [hnodes, insertNode_length_overwrite hany,
        length_of_map_skel (addLevels_skel hres)]

theorem C1_add_overwrites_witness :
    (findNode (HnswIndex.mk [⟨1, [[1]], ⟨1, [5]⟩, 0⟩] (some 1)).nodes 1).map
      (fun n => (n.item, n.layer)) = some ((⟨1, [5]⟩ : VectorItem), 0) ∧
    (HnswIndex.mk [⟨1, [[1]], ⟨1, [5]⟩, 0⟩] (some 1)).nodes.length
      = exS1.nodes.length :=
  C1_add_overwrites exDist exS1 ⟨1, [5]⟩ 0
    ⟨[⟨1, [[1]], ⟨1, [5]⟩, 0⟩], some 1⟩ exS1_reach (by decide) (by decide)

/-! ### C6 -/

/-- Claim C6, confirmed: every state reachable by successful add calls satisfies
    the degree bound — every node's connection list at layer L has length
    at most 2M at layer 0 and at most M above. -/
theorem C6_degree_bound (dist : DistFn) (s : HnswIndex) (h : Reachable dist s) :
    ∀ n ∈ s.nodes, ∀ L : Nat,
      (n.connections.getD L []).length ≤ (if L = 0 then 2 * M else M) := by
  intro n hn L
  have hd := (reachable_WF h).2.2 n hn L
  simpa [M_max] using hd

theorem C6_degree_bound_witness :
    ((Node.mk 1 [[2]] exV1 0).connections.getD 0 []).length ≤
      (if (0 : Nat) = 0 then 2 * M else M) :=
  C6_degree_bound exDist exS3 exS3_reach ⟨1, [[2]], exV1, 0⟩ (by decide) 0

/-! ### C7: entry-point invariant under distinct-id insertion -/

theorem skel_findNode_some {t t' : NodeTable}
    (hsk : t'.map skel = t.map skel) {i : Nat} {n' : Node}
    (h : findNode t' i = some n') :
    ∃ n, findNode t i = some n ∧ n.layer = n'.layer := by
  have hh := skel_findNode hsk i
  rw [h] at hh
  cases hf : findNode t i with
  | none =>
    rw [hf] at hh
    simp at hh
  | some n =>
    rw [hf] at hh
    simp only [Option.map_some'] at hh
    refine ⟨n, rfl, ?_⟩
    have h2 : skel n' = skel n := by
      injection hh
    exact (congrArg (fun p => p.2.1) h2).symm

theorem mem_layer_of_map_skel {t t' : NodeTable}
    (hsk : t'.map skel = t.map skel) {m : Node} (hm : m ∈ t') :
    ∃ m0 ∈ t, m0.layer = m.layer := by
  have h1 : m.layer ∈ t'.map (fun n => n.layer) := List.mem_map.mpr ⟨m, hm, rfl⟩
  rw [map_layer_of_map_skel hsk] at h1
  obtain ⟨m0, hm0, he⟩ := List.mem_map.mp h1
  exact ⟨m0, hm0, he⟩

theorem findNode_none_iff {t : NodeTable} {i : Nat} :
    findNode t i = none ↔ ¬ i ∈ t.map (fun n => n.id) := by
  rw [← findNode_isSome_iff]
  cases hf : findNode t i <;> simp

theorem insertNode_fresh {t : NodeTable} {n : Node}
    (h : ¬ n.id ∈ t.map (fun m => m.id)) : insertNode t n = t ++ [n] := by
  unfold insertNode
  rw [if_neg]
  intro hany
  obtain ⟨m, hm, hb⟩ := List.any_eq_true.mp hany
  exact h (List.mem_map.mpr ⟨m, hm, beq_iff_eq.mp hb⟩)

theorem findNode_singleton_self (n : Node) : findNode [n] n.id = some n := by
  simp [findNode, List.find?]

/-- Claim C7, confirmed: under sequences of successful adds with pairwise-distinct
    ids, the entry point is empty iff the node table is, and when present
    it resolves to a stored node whose top layer is maximal among all
    stored nodes. -/
theorem C7_entry_point (dist : DistFn) (s : HnswIndex) (h : ReachableD dist s) :
    (s.entry_point = none ↔ s.nodes = []) ∧
    (∀ e, s.entry_point = some e → ∃ n, findNode s.nodes e = some n ∧
      ∀ m ∈ s.nodes, m.layer ≤ n.layer) := by
  induction h with
  | empty =>
    constructor
    · simp [emptyIndex]
    · intro e he
      simp [emptyIndex] at he
  | step hr hlvl hnew hadd ih =>
    rename_i s0 s1 item lvl
    rcases add_ok_cases hadd with ⟨hemp, hs1⟩ |
      ⟨hne, e, res, ep1, he, hres, hnodes, hepn1, hbranch⟩
    · rw [hemp] at hs1
      have hins : insertNode ([] : NodeTable)
          ⟨item.id, List.replicate (lvl + 1) [], item, lvl⟩
          = [⟨item.id, List.replicate (lvl + 1) [], item, lvl⟩] := rfl
      rw [hins] at hs1
      subst hs1
      constructor
      · simp
      · intro e2 he2
        simp only [Option.some.injEq] at he2
        refine ⟨⟨item.id, List.replicate (lvl + 1) [], item, lvl⟩, ?_, ?_⟩
        · rw [← he2]
          exact findNode_singleton_self _
        · intro m hm
          simp only [List.mem_singleton] at hm
          rw [hm]
    · obtain ⟨n0, hn0, hmax0⟩ := ih.2 e he
      have hsk := addLevels_skel hres
      have hfresh : ¬ item.id ∈ res.1.map (fun m => m.id) := by
        rw [map_id_of_map_skel hsk]
        exact findNode_none_iff.mp hnew
      have hins : insertNode res.1 ⟨item.id, res.2, item, lvl⟩
          = res.1 ++ [⟨item.id, res.2, item, lvl⟩] := insertNode_fresh hfresh
      have hnodes2 : s1.nodes = res.1 ++ [⟨item.id, res.2, item, lvl⟩] := by
        rw [hnodes, hins]
      -- identify ep1's layer with n0's layer
      obtain ⟨n1, hn1, hlay1⟩ := skel_findNode_some hsk.symm hn0
      have hlook : findNode s1.nodes e = some n1 := by
        rw [hnodes2]
        exact findNode_append_left hn1
      have hep1n1 : ep1 = n1 := by
        rw [hepn1] at hlook
        injection hlook
      have hmaxAll : ∀ m ∈ res.1, m.layer ≤ n0.layer := by
        intro m hm
        obtain ⟨m0, hm0, he0⟩ := mem_layer_of_map_skel hsk hm
        rw [← he0]
        exact hmax0 m0 hm0
      have hnonnil : s1.nodes ≠ [] := by
        rw [hnodes2]
        simp
      rcases hbranch with ⟨hlt, heq⟩ | ⟨hge, heq⟩
      · constructor
        · constructor
          · intro hcontra
            rw [heq] at hcontra
            simp at hcontra
          · intro hcontra
            exact absurd hcontra hnonnil
        · intro e2 he2
          rw [heq] at he2
          simp only [Option.some.injEq] at he2
          refine ⟨⟨item.id, res.2, item, lvl⟩, ?_, ?_⟩
          · rw [← he2, hnodes2]
            rw [findNode_append_right (findNode_none_iff.mpr hfresh)]
            exact findNode_singleton_self _
          · intro m hm
            rw [hnodes2] at hm
            rcases List.mem_append.mp hm with hm1 | hm1
            · have h1 := hmaxAll m hm1
              have h2 : n0.layer = ep1.layer := by
                rw [hep1n1, hlay1]
              show m.layer ≤ lvl
              omega
            · simp only [List.mem_singleton] at hm1
              rw [hm1]
      · constructor
        · constructor
          · intro hcontra
            rw [heq] at hcontra
            have := ih.1.mp hcontra
            exact absurd this hne
          · intro hcontra
            exact absurd hcontra hnonnil
        · intro e2 he2
          rw [heq, he] at he2
          simp only [Option.some.injEq] at he2
          refine ⟨ep1, by rw [← he2]; exact hepn1, ?_⟩
          intro m hm
          rw [hnodes2] at hm
          rcases List.mem_append.mp hm with hm1 | hm1
          · have h1 := hmaxAll m hm1
            have h2 : n0.layer = ep1.layer := by
              rw [hep1n1, hlay1]
            omega
          · simp only [List.mem_singleton] at hm1
            rw [hm1]
            show lvl ≤ ep1.layer
            omega

theorem C7_entry_point_witness :
    (exS2.entry_point = none ↔ exS2.nodes = []) :=
  (C7_entry_point exDist exS2 exS2_reachD).1

/-! ### search: destructuring and the ordering / size claims -/

theorem lookupItems_forall2 {t : NodeTable} {l : List Neighbor}
    {items : List VectorItem} (h : lookupItems t l = .ok items) :
    List.Forall₂ (fun (n : Neighbor) (it : VectorItem) =>
      ∃ nd, findNode t n.id = some nd ∧ it = nd.item) l items := by
  induction l generalizing items with
  | nil =>
    simp only [lookupItems, Except.ok.injEq] at h
    rw [← h]
    exact List.Forall₂.nil
  | cons n rest ih =>
    simp only [lookupItems] at h
    rw [bind_ok_iff] at h
    obtain ⟨nd, hnd, h⟩ := h
    rw [orPanic_ok_iff] at hnd
    rw [bind_ok_iff] at h
    obtain ⟨tl, htl, h⟩ := h
    simp only [Except.ok.injEq] at h
    rw [← h]
    exact List.Forall₂.cons ⟨nd, hnd, rfl⟩ (ih htl)

theorem lookupItems_length {t : NodeTable} {l : List Neighbor}
    {items : List VectorItem} (h : lookupItems t l = .ok items) :
    items.length = l.length :=
  (lookupItems_forall2 h).length_eq.symm

theorem lookupItems_ok {t : NodeTable} {l : List Neighbor}
    (hl : ∀ n ∈ l, (findNode t n.id).isSome = true) :
    ∃ items, lookupItems t l = .ok items := by
  induction l with
  | nil => exact ⟨[], rfl⟩
  | cons n rest ih =>
    obtain ⟨nd, hnd⟩ := findNode_isSome_exists (hl n (List.mem_cons_self n rest))
    obtain ⟨tl, htl⟩ := ih (fun m hm => hl m (List.mem_cons_of_mem n hm))
    refine ⟨nd.item :: tl, ?_⟩
    simp only [lookupItems, hnd, orPanic, ok_bind, htl]

theorem forall2_mem_right {α β : Type} {R : α → β → Prop} {l : List α}
    {m : List β} (hf : List.Forall₂ R l m) :
    ∀ y ∈ m, ∃ x ∈ l, R x y := by
  induction hf with
  | nil => intro y hy; simp at hy
  | cons hax hf2 ih =>
    intro y hy
    rcases List.mem_cons.mp hy with hy1 | hy1
    · exact ⟨_, List.mem_cons_self _ _, hy1 ▸ hax⟩
    · obtain ⟨x, hx, hr⟩ := ih y hy1
      exact ⟨x, List.mem_cons_of_mem _ hx, hr⟩

theorem forall2_and_left {α β : Type} {R : α → β → Prop} {S : α → Prop}
    {l : List α} {m : List β} (hf : List.Forall₂ R l m)
    (hs : ∀ a ∈ l, S a) : List.Forall₂ (fun a b => R a b ∧ S a) l m := by
  induction hf with
  | nil => exact List.Forall₂.nil
  | cons hax hf2 ih =>
    exact List.Forall₂.cons ⟨hax, hs _ (List.mem_cons_self _ _)⟩
      (ih (fun a ha => hs a (List.mem_cons_of_mem _ ha)))

theorem pairwise_transfer {α β : Type} {R : α → β → Prop} {P : α → α → Prop}
    {Q : β → β → Prop}
    (himp : ∀ a b x y, R a x → R b y → P a b → Q x y) :
    ∀ {l : List α} {m : List β}, List.Forall₂ R l m → l.Pairwise P →
      m.Pairwise Q := by
  intro l m hf
  induction hf with
  | nil => intro _; exact List.Pairwise.nil
  | @cons a x l2 m2 hax hf2 ih =>
    intro hp
    rw [List.pairwise_cons] at hp ⊢
    obtain ⟨hrel, hp2⟩ := hp
    refine ⟨?_, ih hp2⟩
    intro y hy
    obtain ⟨b, hb, hRb⟩ := forall2_mem_right hf2 y hy
    exact himp a b x y hax hRb (hrel b hb)

theorem search_ok_cases {dist : DistFn} {s : HnswIndex} {query : VectorItem}
    {k : Nat} {items : List VectorItem}
    (h : search dist s query k = .ok items) :
    (s.nodes.isEmpty = true ∧ items = []) ∨
    (∃ e ep_node fin neighbors,
      s.entry_point = some e ∧ findNode s.nodes e = some ep_node ∧
      descendLevels dist s.nodes query
        (((List.range ep_node.layer).map (fun l => l + 1)).reverse)
        (e, dist query ep_node.item) = .ok fin ∧
      search_at_layer dist s.nodes fin.1 query 0 EF_SEARCH = .ok neighbors ∧
      lookupItems s.nodes
        ((List.insertionSort neighborLE neighbors).take k) = .ok items) := by
  unfold search at h
  split at h
  · left
    next hemp =>
    refine ⟨hemp, ?_⟩
    simp only [Except.ok.injEq] at h
    exact h.symm
  · right
    rw [bind_ok_iff] at h
    obtain ⟨e, he, h⟩ := h
    rw [orPanic_ok_iff] at he
    rw [bind_ok_iff] at h
    obtain ⟨ep_node, hepn, h⟩ := h
    rw [orPanic_ok_iff] at hepn
    rw [bind_ok_iff] at h
    obtain ⟨fin, hfin, h⟩ := h
    rw [bind_ok_iff] at h
    obtain ⟨nb, hnb, h⟩ := h
    exact ⟨e, ep_node, fin, nb, he, hepn, hfin, hnb, h⟩

/-! ### C4 -/

/-- Claim C4, amended: the number of items returned by search(q, k) is AT MOST
    min(k, number of stored nodes); equality fails in general (see the
    counterexample) because the early-termination and eviction bugs can
    hide reachable nodes. -/
theorem C4_search_size_amended (dist : DistFn) (s : HnswIndex)
    (h : Reachable dist s) (q : VectorItem) (k : Nat)
    (items : List VectorItem) (hs : search dist s q k = .ok items) :
    items.length ≤ min k s.nodes.length := by
  rcases search_ok_cases hs with ⟨hemp, hi⟩ |
    ⟨e, ep_node, fin, nb, he, hep, hdesc, hsal, hlook⟩
  · rw [hi]
    simp
  · have hlen1 := lookupItems_length hlook
    have hlen2 : ((List.insertionSort neighborLE nb).take k).length ≤ k := by
      rw [List.length_take]
      exact Nat.min_le_left _ _
    have hlen3 : ((List.insertionSort neighborLE nb).take k).length ≤
        (List.insertionSort neighborLE nb).length := by
      rw [List.length_take]
      exact Nat.min_le_right _ _
    have hlen4 : (List.insertionSort neighborLE nb).length = nb.length :=
      (List.perm_insertionSort neighborLE nb).length_eq
    have hlen5 : nb.length ≤ s.nodes.length := search_at_layer_length hsal
    exact le_min (by omega) (by omega)

theorem C4_search_size_amended_witness :
    ([exV1, exV2] : List VectorItem).length ≤ min 3 exS3.nodes.length :=
  C4_search_size_amended exDist exS3 exS3_reach exQ0 3 [exV1, exV2] (by decide)

/-! ### C5 -/

/-- Claim C5, confirmed: the sequence of items returned by search is ordered by
    non-decreasing distance to the query under the index's distance
    function (search sorts the layer-0 result ascending before mapping ids
    to items). -/
theorem C5_search_ordering (dist : DistFn) (s : HnswIndex)
    (h : Reachable dist s) (q : VectorItem) (k : Nat)
    (items : List VectorItem) (hs : search dist s q k = .ok items) :
    items.Pairwise (fun a b => dist q a ≤ dist q b) := by
  rcases search_ok_cases hs with ⟨hemp, hi⟩ |
    ⟨e, ep_node, fin, nb, he, hep, hdesc, hsal, hlook⟩
  · rw [hi]
    exact List.Pairwise.nil
  · have hsorted : (List.insertionSort neighborLE nb).Pairwise neighborLE :=
      List.sorted_insertionSort neighborLE nb
    have htake : ((List.insertionSort neighborLE nb).take k).Pairwise neighborLE :=
      hsorted.sublist (List.take_sublist k _)
    have hlinks : ∀ n ∈ (List.insertionSort neighborLE nb).take k,
        ∃ nd, findNode s.nodes n.id = some nd ∧
          n.distance = dist q nd.item := by
      intro n hn
      have hn2 : n ∈ nb := (List.perm_insertionSort neighborLE nb).mem_iff.mp
        (List.take_subset _ _ hn)
      exact (search_at_layer_props hsal).2 n hn2
    have hf2 := forall2_and_left (lookupItems_forall2 hlook) hlinks
    refine pairwise_transfer ?_ hf2 htake
    rintro a b x y ⟨⟨nda, hfa, hxa⟩, ⟨nda2, hfa2, hda⟩⟩
      ⟨⟨ndb, hfb, hyb⟩, ⟨ndb2, hfb2, hdb⟩⟩ hP
    rw [hfa] at hfa2
    rw [hfb] at hfb2
    injection hfa2 with hea
    injection hfb2 with heb
    show dist q x ≤ dist q y
    have hxa2 : dist q x = a.distance := by
      rw [hxa, hda, ← hea]
    have hyb2 : dist q y = b.distance := by
      rw [hyb, hdb, ← heb]
    rw [hxa2, hyb2]
    exact hP

theorem C5_search_ordering_witness :
    ([exV1, exV2] : List VectorItem).Pairwise
      (fun a b => exDist exQ0 a ≤ exDist exQ0 b) :=
  C5_search_ordering exDist exS3 exS3_reach exQ0 3 [exV1, exV2] (by decide)

/-! ### C8: search never fails on reachable states (no dimension check) -/

theorem getD_mem_of_lt :
    ∀ {l : List (List Nat)} {i : Nat}, i < l.length → l.getD i [] ∈ l
  | [], i, h => by simp at h
  | x :: xs, 0, _ => by simp
  | x :: xs, i + 1, h => by
    simp only [List.getD_cons_succ]
    exact List.mem_cons_of_mem x (getD_mem_of_lt (by simpa using h))

theorem bestFold_ok (dist : DistFn) (t : NodeTable) (query : VectorItem)
    {l : List Nat} (hl : ∀ i ∈ l, (findNode t i).isSome = true) :
    ∀ (b : Nat × ℚ), ∃ r,
      (l.foldlM (fun (b : Nat × ℚ) nid => do
        let nn ← orPanic (findNode t nid) "key not found"
        if dist query nn.item < b.2 then pure (nid, dist query nn.item)
        else pure b) b :
          Except String (Nat × ℚ)) = .ok r ∧
      (r.1 = b.1 ∨ r.1 ∈ l) := by
  induction l with
  | nil =>
    intro b
    exact ⟨b, rfl, Or.inl rfl⟩
  | cons nid rest ih =>
    intro b
    obtain ⟨nn, hnn⟩ := findNode_isSome_exists (hl nid (List.mem_cons_self nid rest))
    by_cases hcl : dist query nn.item < b.2
    · obtain ⟨r, hr, hm⟩ := ih (fun i hi => hl i (List.mem_cons_of_mem nid hi))
        (nid, dist query nn.item)
      refine ⟨r, ?_, ?_⟩
      · simp only [List.foldlM_cons, hnn, orPanic, ok_bind, if_pos hcl]
        exact hr
      · rcases hm with h1 | h1
        · right
          rw [h1]
          exact List.mem_cons_self nid rest
        · right
          exact List.mem_cons_of_mem nid h1
    · obtain ⟨r, hr, hm⟩ := ih (fun i hi => hl i (List.mem_cons_of_mem nid hi)) b
      refine ⟨r, ?_, ?_⟩
      · simp only [List.foldlM_cons, hnn, orPanic, ok_bind, if_neg hcl]
        exact hr
      · rcases hm with h1 | h1
        · exact Or.inl h1
        · exact Or.inr (List.mem_cons_of_mem nid h1)

theorem greedyAtLevel_ok (dist : DistFn) (t : NodeTable) (query : VectorItem)
    (level : Nat) (hin : ConnInT t (t.map (fun n => n.id))) :
    ∀ (fuel : Nat) (st : Nat × ℚ), (findNode t st.1).isSome = true →
    ∃ r, greedyAtLevel dist t query level fuel st = .ok r ∧
      (findNode t r.1).isSome = true := by
  intro fuel
  induction fuel with
  | zero =>
    intro st hst
    exact ⟨st, rfl, hst⟩
  | succ fuel ih =>
    intro st hst
    obtain ⟨node, hnode⟩ := findNode_isSome_exists hst
    by_cases hlev : level < node.connections.length
    · have hl : ∀ i ∈ node.connections.getD level [],
          (findNode t i).isSome = true := by
        intro i hi
        rw [findNode_isSome_iff]
        exact hin node (findNode_mem_id hnode).1 _ (getD_mem_of_lt hlev) i hi
      obtain ⟨best, hbest, hbmem⟩ := bestFold_ok dist t query hl st
      have hbf : (findNode t best.1).isSome = true := by
        rcases hbmem with h1 | h1
        · rw [h1]
          exact hst
        · exact hl best.1 h1
      by_cases heq : (best.1 == st.1) = true
      · refine ⟨st, ?_, hst⟩
        unfold greedyAtLevel
        simp only [hnode, if_pos hlev, hbest, ok_bind, heq, if_true]
      · obtain ⟨r, hr, hrf⟩ := ih best hbf
        refine ⟨r, ?_, hrf⟩
        unfold greedyAtLevel
        simp only [hnode, if_pos hlev, hbest, ok_bind, heq, if_false,
          Bool.false_eq_true]
        exact hr
    · refine ⟨st, ?_, hst⟩
      unfold greedyAtLevel
      simp only [hnode, if_neg hlev, ok_bind]
      simp

theorem descendLevels_ok (dist : DistFn) (t : NodeTable) (query : VectorItem)
    (hin : ConnInT t (t.map (fun n => n.id))) :
    ∀ (levels : List Nat) (st : Nat × ℚ), (findNode t st.1).isSome = true →
    ∃ r, descendLevels dist t query levels st = .ok r ∧
      (findNode t r.1).isSome = true := by
  intro levels
  induction levels with
  | nil =>
    intro st hst
    exact ⟨st, rfl, hst⟩
  | cons level rest ih =>
    intro st hst
    obtain ⟨st1, hst1, hf1⟩ := greedyAtLevel_ok dist t query level hin
      (t.length + 1) st hst
    obtain ⟨r, hr, hrf⟩ := ih st1 hf1
    refine ⟨r, ?_, hrf⟩
    show (greedyAtLevel dist t query level (t.length + 1) st >>= fun st1 =>
      descendLevels dist t query rest st1) = .ok r
    rw [hst1, ok_bind]
    exact hr

theorem search_ok {dist : DistFn} {s : HnswIndex} (hwf : WF s)
    (q : VectorItem) (k : Nat) : ∃ items, search dist s q k = .ok items := by
  by_cases hemp : s.nodes.isEmpty = true
  · refine ⟨[], ?_⟩
    unfold search
    rw [if_pos hemp]
  · obtain ⟨e, he⟩ : ∃ e, s.entry_point = some e := by
      cases hep0 : s.entry_point with
      | none =>
        exfalso
        have := hwf.1.1.mp hep0
        rw [this] at hemp
        simp at hemp
      | some e => exact ⟨e, rfl⟩
    have hfind := hwf.1.2 e he
    obtain ⟨ep_node, hepn⟩ := findNode_isSome_exists hfind
    obtain ⟨fin, hfin, hfinf⟩ := descendLevels_ok dist s.nodes q hwf.2.1
      (((List.range ep_node.layer).map (fun l => l + 1)).reverse)
      (e, dist q ep_node.item) (by simpa using hfind)
    obtain ⟨nb, hnb⟩ := search_at_layer_ok dist s.nodes fin.1 q 0 EF_SEARCH hfinf
    have hnbf : ∀ n ∈ (List.insertionSort neighborLE nb).take k,
        (findNode s.nodes n.id).isSome = true := by
      intro n hn
      have hn2 : n ∈ nb := (List.perm_insertionSort neighborLE nb).mem_iff.mp
        (List.take_subset _ _ hn)
      obtain ⟨nd, hnd, _⟩ := (search_at_layer_props hnb).2 n hn2
      rw [hnd]
      rfl
    obtain ⟨items, hitems⟩ := lookupItems_ok hnbf
    refine ⟨items, ?_⟩
    unfold search
    rw [if_neg hemp]
    simp only [he, hepn, orPanic, ok_bind, hfin, hnb, hitems]

theorem stepNeighbor_congr (dist : DistFn) (t : NodeTable)
    (q1 q2 : VectorItem) (hq : ∀ v, dist q1 v = dist q2 v) (ef : Nat)
    (furthest : Option ℚ) (st : List Nat × List Neighbor × List Neighbor)
    (nid : Nat) :
    stepNeighbor dist t q1 ef furthest st nid
      = stepNeighbor dist t q2 ef furthest st nid := by
  unfold stepNeighbor
  simp only [hq]

theorem searchLoop_congr (dist : DistFn) (t : NodeTable) (q1 q2 : VectorItem)
    (hq : ∀ v, dist q1 v = dist q2 v) (level ef : Nat) :
    ∀ (fuel : Nat) (v : List Nat) (c r : List Neighbor),
    searchLoop dist t q1 level ef fuel v c r
      = searchLoop dist t q2 level ef fuel v c r := by
  intro fuel
  induction fuel with
  | zero =>
    intro v c r
    rfl
  | succ fuel ih =>
    intro v c r
    have hstep : stepNeighbor dist t q1 ef = stepNeighbor dist t q2 ef := by
      funext furthest st nid
      exact stepNeighbor_congr dist t q1 q2 hq ef furthest st nid
    simp only [searchLoop, hstep, ih]

theorem search_at_layer_congr (dist : DistFn) (t : NodeTable) (ep : Nat)
    (q1 q2 : VectorItem) (hq : ∀ v, dist q1 v = dist q2 v) (level ef : Nat) :
    search_at_layer dist t ep q1 level ef
      = search_at_layer dist t ep q2 level ef := by
  have hloop := searchLoop_congr dist t q1 q2 hq level ef
  unfold search_at_layer
  simp only [hq, hloop]

theorem greedyAtLevel_congr (dist : DistFn) (t : NodeTable)
    (q1 q2 : VectorItem) (hq : ∀ v, dist q1 v = dist q2 v) (level : Nat) :
    ∀ (fuel : Nat) (st : Nat × ℚ),
    greedyAtLevel dist t q1 level fuel st
      = greedyAtLevel dist t q2 level fuel st := by
  intro fuel
  induction fuel with
  | zero =>
    intro st
    rfl
  | succ fuel ih =>
    intro st
    unfold greedyAtLevel
    simp only [hq, ih]

theorem descendLevels_congr (dist : DistFn) (t : NodeTable)
    (q1 q2 : VectorItem) (hq : ∀ v, dist q1 v = dist q2 v) :
    ∀ (levels : List Nat) (st : Nat × ℚ),
    descendLevels dist t q1 levels st = descendLevels dist t q2 levels st := by
  intro levels
  induction levels with
  | nil =>
    intro st
    rfl
  | cons level rest ih =>
    intro st
    have hg := greedyAtLevel_congr dist t q1 q2 hq level
    simp only [descendLevels, hg, ih]

/-- Claim C8, amended: search performs no dimension check — the query enters
    the algorithm only through the distance function, so any two queries at
    identical distances from every item (in particular a dimension-mismatched
    query and the query the silently-truncating Euclidean distance
    effectively sees) receive identical results, and a mismatched query
    against a non-empty index is answered normally rather than with a
    DimensionMismatch failure (see the counterexample). Source runs that
    panic on incomparable NaN distances lie outside this total-distance
    embedding and force nothing here. -/
theorem C8_search_query_only_via_dist (dist : DistFn) (s : HnswIndex)
    (q1 q2 : VectorItem) (k : Nat) (hq : ∀ v, dist q1 v = dist q2 v) :
    search dist s q1 k = search dist s q2 k := by
  have hdesc := descendLevels_congr dist s.nodes q1 q2 hq
  have hsal : ∀ (ep level ef : Nat),
      search_at_layer dist s.nodes ep q1 level ef
        = search_at_layer dist s.nodes ep q2 level ef :=
    fun ep level ef => search_at_layer_congr dist s.nodes ep q1 q2 hq level ef
  unfold search
  simp only [hq, hdesc, hsal]

theorem C8_search_query_only_via_dist_witness :
    search exDist exT1 ⟨9, [1, 2, 3]⟩ 5 = search exDist exT1 ⟨9, [1, 2]⟩ 5 :=
  C8_search_query_only_via_dist exDist exT1 ⟨9, [1, 2, 3]⟩ ⟨9, [1, 2]⟩ 5
    (fun v => rfl)
